import Mathlib

/-!
Verification of the vibebox sandbox launcher against its specification.

The Go sources are shallowly embedded: pure helper functions become Lean
functions over `List Char` / `String`, stateful operations become explicit
state passing over small record types, and fallible operations return
`Except` or `Option`.  External effects (HTTP responses, the sha256 digest,
tar extraction, the host environment) are passed in as explicit parameters,
so each embedded function is a deterministic function of its inputs.
-/

namespace Vibebox

/-! ## Provider selection (internal/backend `Select`, internal/config provider)

Embeds `config.Provider` (a Go string type), `NormalizeProvider`,
`Provider.Validate`, and `backend.Select`.  A probe result is
`{Available, Reason, FixHints}`; `Select` probes all three backends and
follows the decision table.  The Go function formats errors with
`fmt.Errorf`; here the error payloads are kept structured so that the
reason/hints they carry are visible. -/

structure ProbeResult where
  available : Bool
  reason : String
  fixHints : List String
deriving DecidableEq, Repr

/-- `backend.Selection`: chosen backend plus fallback diagnostics.
The `Diagnostics` map always holds all three probe results; it is omitted
here because it is the same on every path. -/
structure Selection where
  backendName : String
  provider : String
  wasFallback : Bool
  fallbackFrom : String
deriving DecidableEq, Repr

/-- The error cases of `Select` (Go formats these into `fmt.Errorf` strings;
the payloads carried are the same). -/
inductive SelectErr where
  | unavailable (target reason : String) (hints : List String)
  | autoFailure (appleReason dockerReason : String)
  | invalid (provider : String)
deriving DecidableEq, Repr

/-- `config.NormalizeProvider`: the legacy alias "macos" maps to "apple-vm". -/
def normalizeProvider (p : String) : String :=
  if p = "macos" then "apple-vm" else p

/-- `config.Provider.Validate` as a Bool: valid canonical providers. -/
def validProvider (p : String) : Bool :=
  p = "off" || p = "auto" || p = "apple-vm" || p = "docker"

/-- `backend.Select`.  `goos` stands for `runtime.GOOS`; the three probe
results are the outcomes of probing off, apple-vm and docker (Go probes all
three unconditionally, which only affects the diagnostics map). -/
def select (goos provider : String) (offP appleP dockerP : ProbeResult) :
    Except SelectErr Selection :=
  let p := normalizeProvider provider
  if ¬ validProvider p then .error (.invalid p)
  else if p = "off" then
    if offP.available then .ok ⟨"off", "off", false, ""⟩
    else .error (.unavailable "off" offP.reason offP.fixHints)
  else if p = "apple-vm" then
    if appleP.available then .ok ⟨"apple-vm", "apple-vm", false, ""⟩
    else .error (.unavailable "apple-vm" appleP.reason appleP.fixHints)
  else if p = "docker" then
    if dockerP.available then .ok ⟨"docker", "docker", false, ""⟩
    else .error (.unavailable "docker" dockerP.reason dockerP.fixHints)
  else -- p = "auto"
    if goos = "darwin" ∧ appleP.available then
      .ok ⟨"apple-vm", "apple-vm", false, ""⟩
    else if dockerP.available then
      .ok ⟨"docker", "docker", goos = "darwin", "apple-vm"⟩
    else .error (.autoFailure appleP.reason dockerP.reason)

/-- C3. For every requested provider and probe triple, `Select` follows the
decision table: an explicit request for off / apple-vm / docker returns that
backend with `WasFallback = false` iff its own probe is available and
otherwise errors with that backend's reason and hints; `auto` prefers
apple-vm on darwin when available, otherwise docker (fallback flag set iff
the host is darwin), otherwise errors with both reasons; and `auto` never
selects the off backend. -/
theorem select_decision_table (goos : String) (offP appleP dockerP : ProbeResult) :
    (select goos "off" offP appleP dockerP =
      if offP.available then .ok ⟨"off", "off", false, ""⟩
      else .error (.unavailable "off" offP.reason offP.fixHints)) ∧
    (select goos "apple-vm" offP appleP dockerP =
      if appleP.available then .ok ⟨"apple-vm", "apple-vm", false, ""⟩
      else .error (.unavailable "apple-vm" appleP.reason appleP.fixHints)) ∧
    (select goos "docker" offP appleP dockerP =
      if dockerP.available then .ok ⟨"docker", "docker", false, ""⟩
      else .error (.unavailable "docker" dockerP.reason dockerP.fixHints)) ∧
    (goos = "darwin" → appleP.available →
      select goos "auto" offP appleP dockerP = .ok ⟨"apple-vm", "apple-vm", false, ""⟩) ∧
    ((goos ≠ "darwin" ∨ ¬ appleP.available) → dockerP.available →
      select goos "auto" offP appleP dockerP =
        .ok ⟨"docker", "docker", goos = "darwin", "apple-vm"⟩) ∧
    (¬ (goos = "darwin" ∧ appleP.available) → ¬ dockerP.available →
      select goos "auto" offP appleP dockerP =
        .error (.autoFailure appleP.reason dockerP.reason)) ∧
    (∀ sel, select goos "auto" offP appleP dockerP = .ok sel → sel.provider ≠ "off") := by
  refine ⟨?_, ?_, ?_, ?_, ?_, ?_, ?_⟩
  · by_cases h : offP.available <;> simp [select, normalizeProvider, validProvider, h]
  · by_cases h : appleP.available <;> simp [select, normalizeProvider, validProvider, h]
  · by_cases h : dockerP.available <;> simp [select, normalizeProvider, validProvider, h]
  · intro hg ha
    simp [select, normalizeProvider, validProvider, hg, ha]
  · intro hna hd
    by_cases hg : goos = "darwin"
    · rcases hna with hna | hna
      · exact absurd hg hna
      · simp [select, normalizeProvider, validProvider, hg, hna, hd]
    · by_cases ha : appleP.available <;>
        simp [select, normalizeProvider, validProvider, hg, ha, hd]
  · intro hna hd
    by_cases hg : goos = "darwin"
    · by_cases ha : appleP.available
      · exact absurd ⟨hg, ha⟩ hna
      · simp [select, normalizeProvider, validProvider, hg, ha, hd]
    · by_cases ha : appleP.available <;>
        simp [select, normalizeProvider, validProvider, hg, ha, hd]
  · intro sel hsel
    by_cases hg : goos = "darwin" <;> by_cases ha : appleP.available <;>
      by_cases hd : dockerP.available <;>
      simp [select, normalizeProvider, validProvider, hg, ha, hd] at hsel <;>
      simp [← hsel]

/-- Witness for C3: a concrete instantiation (non-darwin host, only docker
available) discharging the hypotheses of each conditional conjunct. -/
theorem select_decision_table_witness :
    select "linux" "auto" ⟨true, "", []⟩ ⟨false, "no vz", []⟩ ⟨true, "", []⟩ =
      .ok ⟨"docker", "docker", false, "apple-vm"⟩ ∧
    select "linux" "off" ⟨true, "", []⟩ ⟨false, "no vz", []⟩ ⟨true, "", []⟩ =
      .ok ⟨"off", "off", false, ""⟩ := by
  have h := select_decision_table "linux" ⟨true, "", []⟩ ⟨false, "no vz", []⟩ ⟨true, "", []⟩
  refine ⟨?_, ?_⟩
  · have h5 := h.2.2.2.2.1 (Or.inl (by decide)) (by decide)
    simpa using h5
  · simpa using h.1

/-! ## Service session registry (pkg Service: StartSession / ExecInSession /
StopSession)

The registry `map[string]*managedSession` is embedded as an association
list keyed by session id; Go map insertion is modelled by `regSet`
(replace-or-add — Go maps are unordered, so the list order is not
observable).  Sessions carry the public `State` plus whether the selected
backend implements `SessionBackend` (which decides whether `StopSession`
performs backend work).  Backend calls themselves are external effects; the
models report whether they were invoked. -/

inductive SessionState where
  | active
  | stopped
deriving DecidableEq, Repr

structure SessionRec where
  state : SessionState
  hasSessionBackend : Bool
deriving DecidableEq, Repr

abbrev Registry := List (String × SessionRec)

/-- Go map assignment `m[k] = v` on the registry. -/
def regSet (reg : Registry) (id : String) (r : SessionRec) : Registry :=
  (id, r) :: reg.filter (fun p => p.1 ≠ id)

/-- Go map read `m[k]` on the registry. -/
def regGet (reg : Registry) (id : String) : Option SessionRec :=
  (reg.find? (fun p => p.1 = id)).map Prod.snd

theorem regGet_cons (p : String × SessionRec) (l : Registry) (j : String) :
    regGet (p :: l) j = if p.1 = j then some p.2 else regGet l j := by
  by_cases h : p.1 = j <;> simp [regGet, List.find?, h]

theorem regGet_filter_ne (l : Registry) (id j : String) (h : j ≠ id) :
    regGet (l.filter (fun p => p.1 ≠ id)) j = regGet l j := by
  induction l with
  | nil => rfl
  | cons p l ih =>
    by_cases hk : p.1 = id
    · have hcond : (decide (p.1 ≠ id)) = false := by simp [hk]
      simp only [List.filter_cons, hcond, Bool.false_eq_true, if_false]
      rw [regGet_cons, if_neg (fun hh : p.1 = j => h (hh ▸ hk))]
      exact ih
    · have hcond : (decide (p.1 ≠ id)) = true := by simp [hk]
      simp only [List.filter_cons, hcond, if_true]
      rw [regGet_cons, regGet_cons]
      by_cases hj : p.1 = j
      · simp [hj]
      · rw [if_neg hj, if_neg hj]
        exact ih

theorem regGet_set_self (reg : Registry) (id : String) (r : SessionRec) :
    regGet (regSet reg id r) id = some r := by
  simp [regSet, regGet_cons]

theorem regGet_set_ne (reg : Registry) (id id' : String) (r : SessionRec)
    (h : id' ≠ id) : regGet (regSet reg id r) id' = regGet reg id' := by
  rw [regSet, regGet_cons, if_neg (fun hh => h hh.symm)]
  exact regGet_filter_ne reg id id' h

/-- `Service.StartSession` (registry effect): after backend prepare and an
optional backend `StartSession`, a record in state `SessionStateActive` is
stored under the fresh session id. -/
def startSessionReg (reg : Registry) (id : String) (hasSB : Bool) : Registry :=
  regSet reg id ⟨.active, hasSB⟩

/-- `Service.StopSession`: result is (new registry, error?, backend stop
invoked?).  An unknown id errors; a session already stopped returns nil
without backend work; otherwise the state is flipped to stopped and the
backend `StopSession` is invoked iff the backend is a `SessionBackend`
(both managed backends' `StopSession` return nil, so the call is modelled
as succeeding). -/
def stopSessionReg (reg : Registry) (id : String) :
    Registry × Except String Unit × Bool :=
  match regGet reg id with
  | none => (reg, .error ("session not found: " ++ id), false)
  | some r =>
    if r.state = .stopped then (reg, .ok (), false)
    else (regSet reg id ⟨.stopped, r.hasSessionBackend⟩, .ok (), r.hasSessionBackend)

/-- `Service.ExecInSession` (registry-facing part): result is
(registry — never modified, error?, backend exec invoked?).  The command
guard runs first, then the id lookup, then the active-state check; only
then is a backend exec dispatched. -/
def execInSessionReg (reg : Registry) (id command : String) :
    Registry × Except String Unit × Bool :=
  if command = "" then (reg, .error "command is required", false)
  else
    match regGet reg id with
    | none => (reg, .error ("session not found: " ++ id), false)
    | some r =>
      if ¬ r.state = .active then
        (reg, .error ("session is not active: " ++ id), false)
      else (reg, .ok (), true)

/-- C8. Sessions start active; `StopSession` flips an active session to
stopped (performing backend work iff the backend supports sessions) and a
second `StopSession` is a no-op (no error, no backend work, registry
untouched); stopped is terminal under every registry operation (a stop, an
exec, or the creation of a session under a different fresh id); and
`ExecInSession` on a non-active session errors without invoking any
backend exec. -/
theorem session_lifecycle (reg : Registry) (id : String) :
    (∀ hasSB, regGet (startSessionReg reg id hasSB) id = some ⟨.active, hasSB⟩) ∧
    (∀ r, regGet reg id = some r → r.state = .active →
      stopSessionReg reg id =
        (regSet reg id ⟨.stopped, r.hasSessionBackend⟩, .ok (), r.hasSessionBackend) ∧
      regGet (stopSessionReg reg id).1 id = some ⟨.stopped, r.hasSessionBackend⟩ ∧
      stopSessionReg (stopSessionReg reg id).1 id =
        ((stopSessionReg reg id).1, .ok (), false)) ∧
    (∀ h, regGet reg id = some ⟨.stopped, h⟩ →
      (∀ id', regGet (stopSessionReg reg id').1 id = some ⟨.stopped, h⟩) ∧
      (∀ id' cmd, regGet (execInSessionReg reg id' cmd).1 id = some ⟨.stopped, h⟩) ∧
      (∀ id' hasSB, id' ≠ id →
        regGet (startSessionReg reg id' hasSB) id = some ⟨.stopped, h⟩)) ∧
    (∀ r cmd, cmd ≠ "" → regGet reg id = some r → ¬ r.state = .active →
      execInSessionReg reg id cmd =
        (reg, .error ("session is not active: " ++ id), false)) := by
  refine ⟨?_, ?_, ?_, ?_⟩
  · intro hasSB
    simp [startSessionReg, regGet_set_self]
  · intro r hr hactive
    have hstop : stopSessionReg reg id =
        (regSet reg id ⟨.stopped, r.hasSessionBackend⟩, .ok (), r.hasSessionBackend) := by
      simp [stopSessionReg, hr, hactive]
    refine ⟨hstop, ?_, ?_⟩
    · rw [hstop]
      exact regGet_set_self ..
    · rw [hstop]
      simp [stopSessionReg, regGet_set_self]
  · intro h hr
    refine ⟨?_, ?_, ?_⟩
    · intro id'
      by_cases he : id' = id
      · subst he
        simp [stopSessionReg, hr]
      · rcases h' : regGet reg id' with _ | r'
        · simp [stopSessionReg, h', hr]
        · by_cases hs : r'.state = .stopped
          · simp [stopSessionReg, h', hs, hr]
          · simp only [stopSessionReg, h']
            rw [if_neg hs]
            exact (regGet_set_ne reg id' id _ (fun hh => he hh.symm)).trans hr
    · intro id' cmd
      by_cases hc : cmd = ""
      · simp [execInSessionReg, hc, hr]
      · rcases h' : regGet reg id' with _ | r'
        · simp [execInSessionReg, hc, h', hr]
        · by_cases hs : r'.state = .active <;> simp [execInSessionReg, hc, h', hs, hr]
    · intro id' hasSB hne
      unfold startSessionReg
      rw [regGet_set_ne _ _ _ _ (fun hh => hne hh.symm)]
      exact hr
  · intro r cmd hc hr hs
    simp [execInSessionReg, hc, hr, hs]

/-- Witness for C8, exercising the full lifecycle on a concrete registry:
create → active, stop → stopped with backend work, second stop no-op,
exec-in-stopped-session rejected. -/
theorem session_lifecycle_witness :
    regGet (startSessionReg [] "s_ab" true) "s_ab" = some ⟨.active, true⟩ ∧
    stopSessionReg [("s_ab", ⟨.active, true⟩)] "s_ab" =
      (regSet [("s_ab", ⟨.active, true⟩)] "s_ab" ⟨.stopped, true⟩, .ok (), true) ∧
    execInSessionReg [("s_ab", ⟨.stopped, true⟩)] "s_ab" "echo hi" =
      ([("s_ab", ⟨.stopped, true⟩)], .error ("session is not active: " ++ "s_ab"), false) := by
  have h1 := (session_lifecycle [] "s_ab").1 true
  have h2 := ((session_lifecycle [("s_ab", ⟨.active, true⟩)] "s_ab").2.1
    ⟨.active, true⟩ (by decide) (by decide)).1
  have h4 := (session_lifecycle [("s_ab", ⟨.stopped, true⟩)] "s_ab").2.2.2
    ⟨.stopped, true⟩ "echo hi" (by decide) (by decide) (by decide)
  exact ⟨h1, h2, h4⟩

/-! ## Service.Exec / Service.ExecInSession empty-command guard

`Service.Exec` checks `req.Command == ""` before anything else; the phases
that follow (project/config resolution, backend selection, prepare, exec)
are external effects, passed here as parameters of arbitrary outcome.  The
model returns the result together with the list of phases actually
performed, so "returns immediately, before doing any work" is expressible:
the phase list is empty and no phase outcome can influence the result. -/

structure ExecOutcome where
  stdout : String
  stderr : String
  exitCode : Int
deriving DecidableEq, Repr

/-- `Service.Exec` pipeline shape with abstract phase outcomes. -/
def serviceExec (resolve : Except String Unit) (sel : Except SelectErr Selection)
    (prepare : Except String Unit) (run : Except String ExecOutcome)
    (command : String) : Except String ExecOutcome × List String :=
  if command = "" then (.error "command is required", [])
  else
    match resolve with
    | .error e => (.error e, ["resolve"])
    | .ok _ =>
      match sel with
      | .error _ => (.error "selection failed", ["resolve", "select"])
      | .ok _ =>
        match prepare with
        | .error e => (.error e, ["resolve", "select", "prepare"])
        | .ok _ =>
          match run with
          | .error e => (.error e, ["resolve", "select", "prepare", "exec"])
          | .ok r => (.ok r, ["resolve", "select", "prepare", "exec"])

/-- C10. An empty command makes `Service.Exec` return the error
"command is required" with no phase performed — whatever the outcomes of
resolution, selection, preparation and execution would have been — and
makes `Service.ExecInSession` return the same error with the session
registry unchanged and no backend exec invoked. -/
theorem empty_command_guard (resolve : Except String Unit)
    (sel : Except SelectErr Selection) (prepare : Except String Unit)
    (run : Except String ExecOutcome) (reg : Registry) (id : String) :
    serviceExec resolve sel prepare run "" = (.error "command is required", []) ∧
    execInSessionReg reg id "" = (reg, .error "command is required", false) := by
  exact ⟨by simp [serviceExec], by simp [execInSessionReg]⟩

/-! ## String-keyed association maps

Shared state representation for the modelled file system and the image
lock: an association list with Go-map semantics (`aset` replaces any
previous binding; lists are never observed through their order). -/

def aget {α : Type} (l : List (String × α)) (k : String) : Option α :=
  (l.find? (fun p => p.1 = k)).map Prod.snd

def aset {α : Type} (l : List (String × α)) (k : String) (v : α) : List (String × α) :=
  (k, v) :: l.filter (fun p => p.1 ≠ k)

def aremove {α : Type} (l : List (String × α)) (k : String) : List (String × α) :=
  l.filter (fun p => p.1 ≠ k)

theorem aget_cons {α : Type} (p : String × α) (l : List (String × α)) (j : String) :
    aget (p :: l) j = if p.1 = j then some p.2 else aget l j := by
  by_cases h : p.1 = j <;> simp [aget, List.find?, h]

theorem aget_set_self {α : Type} (l : List (String × α)) (k : String) (v : α) :
    aget (aset l k v) k = some v := by
  simp [aset, aget_cons]

theorem aget_remove_self {α : Type} (l : List (String × α)) (k : String) :
    aget (aremove l k) k = none := by
  induction l with
  | nil => rfl
  | cons p l ih =>
    unfold aremove at *
    by_cases hp : p.1 = k
    · have hcond : (decide (p.1 ≠ k)) = false := by simp [hp]
      simp only [List.filter_cons, hcond, Bool.false_eq_true, if_false]
      exact ih
    · have hcond : (decide (p.1 ≠ k)) = true := by simp [hp]
      simp only [List.filter_cons, hcond, if_true]
      rw [aget_cons, if_neg hp]
      exact ih

/-! ## Image artifact store (internal/image: DownloadAndVerify, Manager.EnsurePrepared)

The file system is a path → content map (`List (String × String)`); a file
"size" is its content length.  The sha256 digest, the HTTP server and the
tar extractor are external effects, passed in as functions: `respond`
maps the optional Range offset actually sent to the server's response, and
`extractMember archive member` yields the extracted member content (or
`none` when tar fails).  Progress events are observers with no effect on
the data path and are omitted.  `filepath.Join` on the clean segments used
here concatenates with "/". -/

structure HttpResponse where
  status : Nat
  statusText : String
  body : String

/-- `strings.EqualFold` specialized to the ASCII hex digests compared here
(Go's Unicode simple fold coincides with ASCII lowering on them). -/
def asciiLower (c : Char) : Char :=
  if 'A' ≤ c ∧ c ≤ 'Z' then Char.ofNat (c.toNat + 32) else c

def goEqualFold (a b : String) : Bool :=
  a.data.map asciiLower = b.data.map asciiLower

/-- Outcome of `DownloadAndVerify`: resulting file system, the Range offset
sent (if any), the full content the transfer loop wrote into the
destination file (`none` when the request failed before opening it), and
the overall result. -/
structure DLResult where
  fs : List (String × String)
  sentRange : Option Nat
  written : Option String
  result : Except String Unit

/-- The `existing` size statted by `DownloadAndVerify` (0 when the
destination is missing). -/
def dlExisting (fs : List (String × String)) (dest : String) : Nat :=
  ((aget fs dest).map String.length).getD 0

/-- The Range offset sent: `bytes=existing-` iff `existing > 0`. -/
def dlRange (fs : List (String × String)) (dest : String) : Option Nat :=
  if 0 < dlExisting fs dest then some (dlExisting fs dest) else none

/-- The full file content after the transfer loop: append the body on a 206
with a resumable offset, otherwise truncate and write the body alone. -/
def dlContent (resp : HttpResponse) (fs : List (String × String)) (dest : String) : String :=
  if resp.status = 206 ∧ 0 < dlExisting fs dest then ((aget fs dest).getD "") ++ resp.body
  else resp.body

/-- `image.DownloadAndVerify`: stat the destination, send Range iff a
non-empty file exists, accept 200 (truncate) / 206-with-resume (append),
stream the body, then verify sha256 over the full file and delete the file
on mismatch. -/
def downloadAndVerify (hash : String → String) (respond : Option Nat → HttpResponse)
    (fs : List (String × String)) (dest expectedSHA : String) : DLResult :=
  if (respond (dlRange fs dest)).status ≠ 200 ∧ (respond (dlRange fs dest)).status ≠ 206 then
    ⟨fs, dlRange fs dest, none,
      .error ("download failed: " ++ (respond (dlRange fs dest)).statusText)⟩
  else if goEqualFold (hash (dlContent (respond (dlRange fs dest)) fs dest)) expectedSHA then
    ⟨aset fs dest (dlContent (respond (dlRange fs dest)) fs dest), dlRange fs dest,
      some (dlContent (respond (dlRange fs dest)) fs dest), .ok ()⟩
  else
    ⟨aremove (aset fs dest (dlContent (respond (dlRange fs dest)) fs dest)) dest,
      dlRange fs dest, some (dlContent (respond (dlRange fs dest)) fs dest),
      .error ("sha256 mismatch: expected " ++ expectedSHA ++ ", got " ++
        hash (dlContent (respond (dlRange fs dest)) fs dest))⟩

theorem dl_sentRange (hash : String → String) (respond : Option Nat → HttpResponse)
    (fs : List (String × String)) (dest expectedSHA : String) :
    (downloadAndVerify hash respond fs dest expectedSHA).sentRange = dlRange fs dest := by
  unfold downloadAndVerify
  split
  · rfl
  · split <;> rfl

structure DescriptorM where
  id : String
  version : String
  url : String
  artifactName : String
  rawMember : String
  sha256 : String

structure LockRefM where
  id : String
  version : String
  sha256 : String
  artifactPath : String
  rawPath : String
deriving DecidableEq, Repr

structure PreparedPathsM where
  artifactPath : String
  rawPath : String
deriving DecidableEq, Repr

structure WorldM where
  fs : List (String × String)
  lock : List (String × LockRefM)

/-- `config.LockKey`. -/
def lockKey (id version : String) : String := id ++ "@" ++ version

/-- The artifact and raw cache paths `EnsurePrepared` computes
(`cache_root/images/<id>/<version>/{artifact_name, base.raw}`). -/
def preparedPathsFor (cacheRoot : String) (desc : DescriptorM) : PreparedPathsM :=
  ⟨cacheRoot ++ "/images/" ++ desc.id ++ "/" ++ desc.version ++ "/" ++ desc.artifactName,
    cacheRoot ++ "/images/" ++ desc.id ++ "/" ++ desc.version ++ "/base.raw"⟩

/-- The lock entry recorded for a prepared image. -/
def lockRefFor (desc : DescriptorM) (p : PreparedPathsM) : LockRefM :=
  { id := desc.id, version := desc.version, sha256 := desc.sha256,
    artifactPath := p.artifactPath, rawPath := p.rawPath }

/-- `Manager.updateLock`: upsert the `(id@version)` entry recording the
descriptor digest and the prepared paths. -/
def updateLockFor (w : WorldM) (desc : DescriptorM) (p : PreparedPathsM) :
    WorldM × Except String PreparedPathsM :=
  ({ w with lock := aset w.lock (lockKey desc.id desc.version) (lockRefFor desc p) }, .ok p)

/-- The `DownloadAndVerify` call made by `EnsurePrepared`. -/
def dlFor (hash : String → String) (respond : Option Nat → HttpResponse)
    (cacheRoot : String) (w : WorldM) (desc : DescriptorM) : DLResult :=
  downloadAndVerify hash respond w.fs (preparedPathsFor cacheRoot desc).artifactPath desc.sha256

/-- `Manager.EnsurePrepared`: download+verify the artifact, extract the raw
member when `base.raw` is missing (removing the partial file when tar
fails), then upsert the lock entry.  Failures propagate without touching
the lock. -/
def ensurePrepared (hash : String → String) (respond : Option Nat → HttpResponse)
    (extractMember : String → String → Option String)
    (cacheRoot : String) (w : WorldM) (desc : DescriptorM) :
    WorldM × Except String PreparedPathsM :=
  match (dlFor hash respond cacheRoot w desc).result with
  | .error e => ({ w with fs := (dlFor hash respond cacheRoot w desc).fs }, .error e)
  | .ok _ =>
    match aget (dlFor hash respond cacheRoot w desc).fs (preparedPathsFor cacheRoot desc).rawPath with
    | some _ => updateLockFor { w with fs := (dlFor hash respond cacheRoot w desc).fs }
        desc (preparedPathsFor cacheRoot desc)
    | none =>
      match extractMember
          ((aget (dlFor hash respond cacheRoot w desc).fs
            (preparedPathsFor cacheRoot desc).artifactPath).getD "") desc.rawMember with
      | none => ({ w with fs := (dlFor hash respond cacheRoot w desc).fs },
          .error ("extract " ++ desc.rawMember ++ " from " ++
            (preparedPathsFor cacheRoot desc).artifactPath ++ " failed"))
      | some raw => updateLockFor
          { w with fs := (aset (dlFor hash respond cacheRoot w desc).fs
              (preparedPathsFor cacheRoot desc).rawPath raw) }
          desc (preparedPathsFor cacheRoot desc)

/-- C4. If, after the transfer, the digest of the full downloaded artifact
differs from the expected digest (case-insensitively), `DownloadAndVerify`
deletes the artifact file and errors, and `EnsurePrepared` leaves the lock
untouched and fails; conversely, a successful `EnsurePrepared` leaves a
lock entry under `id@version` whose sha256 is the descriptor digest and
whose artifact/raw paths are the returned prepared paths. -/
theorem download_integrity (hash : String → String)
    (respond : Option Nat → HttpResponse)
    (extractMember : String → String → Option String)
    (cacheRoot : String) (w : WorldM) (desc : DescriptorM)
    (fs : List (String × String)) (dest expectedSHA : String) :
    (∀ content, (downloadAndVerify hash respond fs dest expectedSHA).written = some content →
      goEqualFold (hash content) expectedSHA = false →
      (downloadAndVerify hash respond fs dest expectedSHA).result =
        .error ("sha256 mismatch: expected " ++ expectedSHA ++ ", got " ++ hash content) ∧
      aget (downloadAndVerify hash respond fs dest expectedSHA).fs dest = none) ∧
    (∀ e, (downloadAndVerify hash respond w.fs
          (preparedPathsFor cacheRoot desc).artifactPath desc.sha256).result = .error e →
      (ensurePrepared hash respond extractMember cacheRoot w desc).1.lock = w.lock ∧
      (ensurePrepared hash respond extractMember cacheRoot w desc).2 = .error e) ∧
    (∀ paths, (ensurePrepared hash respond extractMember cacheRoot w desc).2 = .ok paths →
      aget (ensurePrepared hash respond extractMember cacheRoot w desc).1.lock
          (lockKey desc.id desc.version) =
        some ⟨desc.id, desc.version, desc.sha256, paths.artifactPath, paths.rawPath⟩) := by
  refine ⟨?_, ?_, ?_⟩
  · intro content hw hbad
    by_cases h1 : (respond (dlRange fs dest)).status ≠ 200 ∧
        (respond (dlRange fs dest)).status ≠ 206
    · unfold downloadAndVerify at hw
      rw [if_pos h1] at hw
      exact absurd hw (by simp)
    · by_cases h2 : goEqualFold (hash (dlContent (respond (dlRange fs dest)) fs dest)) expectedSHA
      · unfold downloadAndVerify at hw
        rw [if_neg h1, if_pos h2] at hw
        simp only [Option.some.injEq] at hw
        subst hw
        rw [h2] at hbad
        exact absurd hbad (by decide)
      · unfold downloadAndVerify at hw ⊢
        rw [if_neg h1, if_neg h2] at hw ⊢
        simp only [Option.some.injEq] at hw
        subst hw
        exact ⟨rfl, aget_remove_self ..⟩
  · intro e he
    have he' : (dlFor hash respond cacheRoot w desc).result = .error e := he
    simp [ensurePrepared, he']
  · intro paths hp
    unfold ensurePrepared at hp ⊢
    cases hres : (dlFor hash respond cacheRoot w desc).result with
    | error e =>
      simp only [hres] at hp
      exact absurd hp (by simp)
    | ok u =>
      simp only [hres] at hp ⊢
      cases hraw : aget (dlFor hash respond cacheRoot w desc).fs
          (preparedPathsFor cacheRoot desc).rawPath with
      | some c =>
        simp only [hraw, updateLockFor, Except.ok.injEq] at hp ⊢
        subst hp
        exact aget_set_self ..
      | none =>
        simp only [hraw] at hp ⊢
        cases hex : extractMember
            ((aget (dlFor hash respond cacheRoot w desc).fs
              (preparedPathsFor cacheRoot desc).artifactPath).getD "") desc.rawMember with
        | none =>
          simp only [hex] at hp
          exact absurd hp (by simp)
        | some raw =>
          simp only [hex, updateLockFor, Except.ok.injEq] at hp ⊢
          subst hp
          exact aget_set_self ..

/-- Witness for C4 at concrete inputs: a mismatching digest removes the
artifact and blocks the lock update; a matching digest installs the lock
entry with the descriptor digest. -/
theorem download_integrity_witness :
    ((downloadAndVerify (fun _ => "aa") (fun _ => ⟨200, "200 OK", "data"⟩) [] "/a" "bb").result =
        .error ("sha256 mismatch: expected " ++ "bb" ++ ", got " ++ "aa") ∧
      aget (downloadAndVerify (fun _ => "aa") (fun _ => ⟨200, "200 OK", "data"⟩) [] "/a" "bb").fs
        "/a" = none) ∧
    ((ensurePrepared (fun _ => "aa") (fun _ => ⟨200, "200 OK", "data"⟩) (fun _ _ => some "raw")
        "/c" ⟨[], []⟩ ⟨"img", "v1", "u", "a.tar", "m.raw", "bb"⟩).1.lock = [] ∧
      (ensurePrepared (fun _ => "aa") (fun _ => ⟨200, "200 OK", "data"⟩) (fun _ _ => some "raw")
        "/c" ⟨[], []⟩ ⟨"img", "v1", "u", "a.tar", "m.raw", "bb"⟩).2 =
        .error ("sha256 mismatch: expected " ++ "bb" ++ ", got " ++ "aa")) ∧
    aget (ensurePrepared (fun _ => "aa") (fun _ => ⟨200, "200 OK", "data"⟩) (fun _ _ => some "raw")
        "/c" ⟨[("/c/images/img/v1/a.tar", "old")], []⟩
        ⟨"img", "v1", "u", "a.tar", "m.raw", "AA"⟩).1.lock (lockKey "img" "v1") =
      some ⟨"img", "v1", "AA", "/c/images/img/v1/a.tar", "/c/images/img/v1/base.raw"⟩ := by
  refine ⟨?_, ?_, ?_⟩
  · exact (download_integrity (fun _ => "aa") (fun _ => ⟨200, "200 OK", "data"⟩)
      (fun _ _ => some "raw") "/c" ⟨[], []⟩ ⟨"img", "v1", "u", "a.tar", "m.raw", "bb"⟩
      [] "/a" "bb").1 "data" rfl rfl
  · exact (download_integrity (fun _ => "aa") (fun _ => ⟨200, "200 OK", "data"⟩)
      (fun _ _ => some "raw") "/c" ⟨[], []⟩ ⟨"img", "v1", "u", "a.tar", "m.raw", "bb"⟩
      [] "/a" "bb").2.1 ("sha256 mismatch: expected " ++ "bb" ++ ", got " ++ "aa") rfl
  · exact (download_integrity (fun _ => "aa") (fun _ => ⟨200, "200 OK", "data"⟩)
      (fun _ _ => some "raw") "/c" ⟨[("/c/images/img/v1/a.tar", "old")], []⟩
      ⟨"img", "v1", "u", "a.tar", "m.raw", "AA"⟩ [] "/a" "AA").2.2
      ⟨"/c/images/img/v1/a.tar", "/c/images/img/v1/base.raw"⟩ rfl

/-- C5. The Range header is sent iff the destination already exists with
positive size (and carries the existing size); a 206 with a non-empty
existing file appends the body to the current content; a 200 truncates and
writes the body from byte 0; any other status errors with the server's
status line without writing and leaves the file system untouched. -/
theorem download_resume (hash : String → String) (respond : Option Nat → HttpResponse)
    (fs : List (String × String)) (dest expectedSHA : String) :
    ((downloadAndVerify hash respond fs dest expectedSHA).sentRange =
      match aget fs dest with
      | some c => if 0 < c.length then some c.length else none
      | none => none) ∧
    (∀ c, aget fs dest = some c → 0 < c.length →
      (respond (some c.length)).status = 206 →
      (downloadAndVerify hash respond fs dest expectedSHA).written =
        some (c ++ (respond (some c.length)).body)) ∧
    (((respond (dlRange fs dest)).status = 200) →
      (downloadAndVerify hash respond fs dest expectedSHA).written =
        some (respond (dlRange fs dest)).body) ∧
    (((respond (dlRange fs dest)).status ≠ 200 ∧
      (respond (dlRange fs dest)).status ≠ 206) →
      (downloadAndVerify hash respond fs dest expectedSHA).result =
        .error ("download failed: " ++ (respond (dlRange fs dest)).statusText) ∧
      (downloadAndVerify hash respond fs dest expectedSHA).written = none ∧
      (downloadAndVerify hash respond fs dest expectedSHA).fs = fs) := by
  refine ⟨?_, ?_, ?_, ?_⟩
  · rw [dl_sentRange]
    cases h : aget fs dest with
    | none => simp [dlRange, dlExisting, h]
    | some c =>
      by_cases hc : 0 < c.length <;> simp [dlRange, dlExisting, h, hc]
  · intro c hc hlen h206
    have hex : dlExisting fs dest = c.length := by simp [dlExisting, hc]
    have hr : dlRange fs dest = some c.length := by simp [dlRange, hex, hlen]
    have hcnt : dlContent (respond (dlRange fs dest)) fs dest =
        c ++ (respond (some c.length)).body := by
      rw [hr]
      simp [dlContent, h206, hex, hlen, hc]
    unfold downloadAndVerify
    rw [hr] at hcnt ⊢
    have hnp : ¬ ((respond (some c.length)).status ≠ 200 ∧
        (respond (some c.length)).status ≠ 206) := by
      intro h
      exact h.2 h206
    rw [if_neg hnp]
    split <;> simp [hcnt]
  · intro h200
    have hcnt : dlContent (respond (dlRange fs dest)) fs dest =
        (respond (dlRange fs dest)).body := by
      unfold dlContent
      rw [if_neg]
      intro hcon
      rw [h200] at hcon
      exact absurd hcon.1 (by decide)
    unfold downloadAndVerify
    have hnp : ¬ ((respond (dlRange fs dest)).status ≠ 200 ∧
        (respond (dlRange fs dest)).status ≠ 206) := by
      intro h
      exact h.1 h200
    rw [if_neg hnp]
    split <;> simp [hcnt]
  · intro hbad
    unfold downloadAndVerify
    rw [if_pos hbad]
    exact ⟨rfl, rfl, rfl⟩

/-- Witness for C5 at concrete inputs: resumed 206 append, fresh 200
truncate-write, and a 404 hard failure with no write. -/
theorem download_resume_witness :
    (downloadAndVerify (fun _ => "h") (fun _ => ⟨206, "206 Partial Content", "bc"⟩)
        [("/f", "a")] "/f" "h").written = some ("a" ++ "bc") ∧
    (downloadAndVerify (fun _ => "h") (fun _ => ⟨200, "200 OK", "abc"⟩)
        [("/f", "a")] "/f" "h").written = some "abc" ∧
    ((downloadAndVerify (fun _ => "h") (fun _ => ⟨404, "404 Not Found", ""⟩)
        [] "/f" "h").result = .error ("download failed: " ++ "404 Not Found") ∧
      (downloadAndVerify (fun _ => "h") (fun _ => ⟨404, "404 Not Found", ""⟩)
        [] "/f" "h").written = none ∧
      (downloadAndVerify (fun _ => "h") (fun _ => ⟨404, "404 Not Found", ""⟩)
        [] "/f" "h").fs = []) := by
  refine ⟨?_, ?_, ?_⟩
  · exact (download_resume (fun _ => "h") (fun _ => ⟨206, "206 Partial Content", "bc"⟩)
      [("/f", "a")] "/f" "h").2.1 "a" rfl (by decide) rfl
  · exact (download_resume (fun _ => "h") (fun _ => ⟨200, "200 OK", "abc"⟩)
      [("/f", "a")] "/f" "h").2.2.1 rfl
  · exact (download_resume (fun _ => "h") (fun _ => ⟨404, "404 Not Found", ""⟩)
      [] "/f" "h").2.2.2 (by refine ⟨by decide, by decide⟩)

/-! ## Off backend environment sanitization (internal/backend/off
`mergeRestrictedEnv`)

The host environment (`os.Environ()`) is a list of "K=V" strings.  The Go
function splits each entry at the first '=' (entries without '=' are
skipped), keeps only allow-listed names in a map (later duplicates win),
overlays `req.Env` (a Go map, so its keys are distinct — a hypothesis
below), and serializes the merged map in sorted key order.  Go's map is
modelled by the association list under `aset`; `sort.Strings` by insertion
sort under `≤` (byte order and Lean's `String` order agree on the ASCII
names involved). -/

theorem aget_set_ne {α : Type} (l : List (String × α)) (k k' : String) (v : α)
    (h : k' ≠ k) : aget (aset l k v) k' = aget l k' := by
  rw [aset, aget_cons, if_neg (fun hh => h hh.symm)]
  induction l with
  | nil => rfl
  | cons p l ih =>
    by_cases hp : p.1 = k
    · have hcond : (decide (p.1 ≠ k)) = false := by simp [hp]
      simp only [List.filter_cons, hcond, Bool.false_eq_true, if_false]
      rw [aget_cons, if_neg (fun hh : p.1 = k' => h (hh ▸ hp))]
      exact ih
    · have hcond : (decide (p.1 ≠ k)) = true := by simp [hp]
      simp only [List.filter_cons, hcond, if_true]
      rw [aget_cons, aget_cons]
      by_cases hj : p.1 = k'
      · simp [hj]
      · rw [if_neg hj, if_neg hj]
        exact ih

theorem aget_isSome_iff_mem_keys {α : Type} (l : List (String × α)) (k : String) :
    (aget l k).isSome = true ↔ k ∈ l.map Prod.fst := by
  induction l with
  | nil => simp [aget]
  | cons p l ih =>
    rw [aget_cons]
    by_cases hp : p.1 = k
    · simp [hp]
    · simp only [hp, if_false, List.map_cons, List.mem_cons, ih]
      constructor
      · exact Or.inr
      · rintro (hh | hh)
        · exact absurd hh.symm hp
        · exact hh

theorem aget_eq_none_of_not_mem {α : Type} (l : List (String × α)) (k : String)
    (h : ¬ k ∈ l.map Prod.fst) : aget l k = none := by
  rcases ha : aget l k with _ | v
  · rfl
  · exact absurd ((aget_isSome_iff_mem_keys l k).1 (by simp [ha])) h

theorem nodup_keys_aset {α : Type} (l : List (String × α)) (k : String) (v : α)
    (h : (l.map Prod.fst).Nodup) : ((aset l k v).map Prod.fst).Nodup := by
  rw [aset, List.map_cons, List.nodup_cons]
  constructor
  · intro hmem
    rcases List.mem_map.1 hmem with ⟨p, hp, hfst⟩
    have := List.of_mem_filter hp
    simp only [decide_eq_true_eq] at this
    exact this hfst
  · exact ((List.filter_sublist l).map Prod.fst).nodup h

/-- The off backend's fixed environment allow-list. -/
def allowListEnv : List String :=
  ["PATH", "HOME", "USER", "SHELL", "LANG", "LC_ALL", "TMPDIR"]

/-- `strings.SplitN(e, "=", 2)`: split at the first '='; `none` when the
entry contains no '=' (such entries are skipped). -/
def splitFirstEq : List Char → Option (List Char × List Char)
  | [] => none
  | c :: rest =>
    if c = '=' then some ([], rest)
    else
      match splitFirstEq rest with
      | none => none
      | some (k, v) => some (c :: k, v)

def parseEnvEntry (e : String) : Option (String × String) :=
  match splitFirstEq e.data with
  | none => none
  | some (k, v) => some (⟨k⟩, ⟨v⟩)

/-- One iteration of the base-building loop over `os.Environ()`. -/
def envStep (m : List (String × String)) (e : String) : List (String × String) :=
  match parseEnvEntry e with
  | some kv => if kv.1 ∈ allowListEnv then aset m kv.1 kv.2 else m
  | none => m

/-- The allow-listed base map built from the host environment. -/
def buildBase (env : List String) : List (String × String) :=
  env.foldl envStep []

/-- The effective host value of variable `k` (last "k=v" entry wins, as in
a map built by iterating `os.Environ()`). -/
def hostStep (k : String) (acc : Option String) (e : String) : Option String :=
  match parseEnvEntry e with
  | some kv => if kv.1 = k then some kv.2 else acc
  | none => acc

def hostLast (env : List String) (k : String) : Option String :=
  env.foldl (hostStep k) none

/-- The merged map: base overlaid with the request env. -/
def mergeMap (env : List String) (extra : List (String × String)) :
    List (String × String) :=
  extra.foldl (fun m kv => aset m kv.1 kv.2) (buildBase env)

/-- `mergeRestrictedEnv`: serialize the merged map in sorted key order. -/
def mergeRestrictedEnv (env : List String) (extra : List (String × String)) :
    List String :=
  (List.insertionSort (· ≤ ·) ((mergeMap env extra).map Prod.fst)).map
    (fun k => k ++ "=" ++ (aget (mergeMap env extra) k).getD "")

/-- The value the claim predicts for variable `k`: the request env entry if
any, else the host value when `k` is allow-listed. -/
def specMergedVal (env : List String) (extra : List (String × String)) (k : String) :
    Option String :=
  match aget extra k with
  | some v => some v
  | none => if k ∈ allowListEnv then hostLast env k else none

/-- The claim's description of the result: exactly the allow-listed host
variables overlaid with the request env, serialized in sorted key order. -/
def specMergedEnv (env : List String) (extra : List (String × String)) : List String :=
  (List.insertionSort (· ≤ ·)
      ((allowListEnv.filter (fun k => (hostLast env k).isSome) ++ extra.map Prod.fst).dedup)).map
    (fun k => k ++ "=" ++ (specMergedVal env extra k).getD "")

theorem aget_buildFold (env : List String) (k : String) :
    ∀ m, aget (env.foldl envStep m) k =
      if k ∈ allowListEnv then env.foldl (hostStep k) (aget m k) else aget m k := by
  induction env with
  | nil =>
    intro m
    split <;> rfl
  | cons e env ih =>
    intro m
    have hseed : aget (envStep m e) k =
        if k ∈ allowListEnv then hostStep k (aget m k) e else aget m k := by
      unfold envStep hostStep
      rcases hp : parseEnvEntry e with _ | kv
      · simp only [hp]
        split <;> rfl
      · simp only [hp]
        by_cases hk : k ∈ allowListEnv
        · by_cases heq : kv.1 = k
          · subst heq
            simp [hk, aget_set_self]
          · by_cases hal : kv.1 ∈ allowListEnv
            · simp [hal, hk, heq, aget_set_ne m kv.1 k kv.2 (fun hh => heq hh.symm)]
            · simp [hal, hk, heq]
        · by_cases hal : kv.1 ∈ allowListEnv
          · have heq : kv.1 ≠ k := fun hh => hk (hh ▸ hal)
            simp [hal, hk, aget_set_ne m kv.1 k kv.2 (fun hh => heq hh.symm)]
          · simp [hal, hk]
    rw [List.foldl_cons, List.foldl_cons, ih (envStep m e), hseed]
    by_cases hk : k ∈ allowListEnv <;> simp [hk]

theorem aget_buildBase (env : List String) (k : String) :
    aget (buildBase env) k =
      if k ∈ allowListEnv then hostLast env k else none := by
  have h := aget_buildFold env k []
  simpa [buildBase, hostLast, aget] using h

theorem aget_overlay (extra : List (String × String)) :
    ∀ base k, (extra.map Prod.fst).Nodup →
      aget (extra.foldl (fun m kv => aset m kv.1 kv.2) base) k =
        match aget extra k with
        | some v => some v
        | none => aget base k := by
  induction extra with
  | nil =>
    intro base k _
    simp [aget]
  | cons kv extra ih =>
    intro base k hnd
    rw [List.map_cons, List.nodup_cons] at hnd
    rw [List.foldl_cons, ih (aset base kv.1 kv.2) k hnd.2, aget_cons]
    by_cases heq : kv.1 = k
    · subst heq
      rw [aget_eq_none_of_not_mem extra kv.1 hnd.1]
      simp [aget_set_self]
    · rw [if_neg heq]
      rcases he : aget extra k with _ | v
      · simp only
        exact aget_set_ne _ _ _ _ (fun hh => heq hh.symm)
      · simp only

theorem aget_mergeMap (env : List String) (extra : List (String × String))
    (k : String) (hnd : (extra.map Prod.fst).Nodup) :
    aget (mergeMap env extra) k = specMergedVal env extra k := by
  unfold mergeMap specMergedVal
  rw [aget_overlay extra (buildBase env) k hnd]
  rcases he : aget extra k with _ | v
  · simp only
    exact aget_buildBase env k
  · simp only

theorem nodup_keys_mergeMap (env : List String) (extra : List (String × String)) :
    ((mergeMap env extra).map Prod.fst).Nodup := by
  have hbase : ∀ (es : List String) (m : List (String × String)),
      (m.map Prod.fst).Nodup → ((es.foldl envStep m).map Prod.fst).Nodup := by
    intro es
    induction es with
    | nil => exact fun m h => h
    | cons e es ih =>
      intro m hm
      rw [List.foldl_cons]
      refine ih (envStep m e) ?_
      unfold envStep
      rcases parseEnvEntry e with _ | kv
      · exact hm
      · by_cases hal : kv.1 ∈ allowListEnv
        · simp only [hal, if_true]
          exact nodup_keys_aset m kv.1 kv.2 hm
        · simp only [hal, if_false]
          exact hm
  have hov : ∀ (ex : List (String × String)) (m : List (String × String)),
      (m.map Prod.fst).Nodup →
      ((ex.foldl (fun m kv => aset m kv.1 kv.2) m).map Prod.fst).Nodup := by
    intro ex
    induction ex with
    | nil => exact fun m h => h
    | cons kv ex ih =>
      intro m hm
      rw [List.foldl_cons]
      exact ih (aset m kv.1 kv.2) (nodup_keys_aset m kv.1 kv.2 hm)
  exact hov extra (buildBase env) (hbase env [] (by simp))

/-- C7. The off backend passes the child process exactly the allow-listed
host variables overlaid with the request env, serialized in sorted key
order (`mergeRestrictedEnv = specMergedEnv`, the latter built verbatim
from the claim); consequently any two host environments agreeing on the
seven allow-listed variables produce an identical child environment for
the same request — no other host variable influences the command. -/
theorem merge_restricted_env (env env1 env2 : List String)
    (extra : List (String × String)) (hnd : (extra.map Prod.fst).Nodup) :
    mergeRestrictedEnv env extra = specMergedEnv env extra ∧
    ((∀ k, k ∈ allowListEnv → hostLast env1 k = hostLast env2 k) →
      mergeRestrictedEnv env1 extra = mergeRestrictedEnv env2 extra) := by
  have hchar : ∀ e : List String, mergeRestrictedEnv e extra = specMergedEnv e extra := by
    intro e
    unfold mergeRestrictedEnv specMergedEnv
    have hkeys : List.insertionSort (· ≤ ·) ((mergeMap e extra).map Prod.fst) =
        List.insertionSort (· ≤ ·)
          ((allowListEnv.filter (fun k => (hostLast e k).isSome) ++ extra.map Prod.fst).dedup) := by
      refine @List.eq_of_perm_of_sorted String (· ≤ ·) _ _ _ ?_
        (List.sorted_insertionSort _ _) (List.sorted_insertionSort _ _)
      refine (List.perm_insertionSort _ _).trans (.trans ?_ (List.perm_insertionSort _ _).symm)
      rw [List.perm_ext_iff_of_nodup (nodup_keys_mergeMap e extra) (List.nodup_dedup _)]
      intro k
      rw [← aget_isSome_iff_mem_keys, aget_mergeMap e extra k hnd, List.mem_dedup,
        List.mem_append, List.mem_filter]
      unfold specMergedVal
      rcases hx : aget extra k with _ | v
      · have hxk : ¬ k ∈ extra.map Prod.fst := by
          intro hmem
          have := (aget_isSome_iff_mem_keys extra k).2 hmem
          rw [hx] at this
          exact absurd this (by simp)
        by_cases hal : k ∈ allowListEnv
        · simp [hal, hxk]
        · simp [hal, hxk]
      · have hxk : k ∈ extra.map Prod.fst := by
          refine (aget_isSome_iff_mem_keys extra k).1 ?_
          simp [hx]
        simp [hxk]
    rw [hkeys]
    refine List.map_congr_left ?_
    intro k _
    rw [aget_mergeMap e extra k hnd]
  refine ⟨hchar env, ?_⟩
  intro hagree
  rw [hchar env1, hchar env2]
  unfold specMergedEnv
  have hfil : allowListEnv.filter (fun k => (hostLast env1 k).isSome) =
      allowListEnv.filter (fun k => (hostLast env2 k).isSome) := by
    apply List.filter_congr
    intro k hk
    rw [hagree k hk]
  rw [hfil]
  refine List.map_congr_left ?_
  intro k hk
  unfold specMergedVal
  rcases hx : aget extra k with _ | v
  · by_cases hal : k ∈ allowListEnv
    · simp only [hal, if_true, hagree k hal]
    · simp only [hal, if_false]
  · simp only

/-- Witness for C7 at a concrete host environment and request: `PATH` and
`HOME` survive, `SECRET` is dropped, the request overrides `HOME` and adds
`FOO`, and the output is sorted; two hosts differing only in `SECRET`
produce identical output. -/
theorem merge_restricted_env_witness :
    mergeRestrictedEnv ["PATH=/bin", "SECRET=x", "HOME=/root"] [("HOME", "/h"), ("FOO", "1")] =
      specMergedEnv ["PATH=/bin", "SECRET=x", "HOME=/root"] [("HOME", "/h"), ("FOO", "1")] ∧
    mergeRestrictedEnv ["PATH=/bin", "SECRET=x", "HOME=/root"] [("HOME", "/h"), ("FOO", "1")] =
      mergeRestrictedEnv ["PATH=/bin", "SECRET=y", "HOME=/root"] [("HOME", "/h"), ("FOO", "1")] := by
  have h1 := merge_restricted_env ["PATH=/bin", "SECRET=x", "HOME=/root"]
    ["PATH=/bin", "SECRET=x", "HOME=/root"] ["PATH=/bin", "SECRET=y", "HOME=/root"]
    [("HOME", "/h"), ("FOO", "1")] (by decide)
  refine ⟨h1.1, h1.2 ?_⟩
  intro k hk
  fin_cases hk <;> rfl

/-! ## Project configuration (internal/config: Default, Validate, Save, Load)

The YAML encoder/decoder is an out-of-scope collaborator (§1 of the spec);
marshalling a `Config` and unmarshalling it back is modelled as the
identity on the record, so `Save` produces the validated (normalized)
record as the stored document and `Load` consumes a stored document.
`Default` depends on `runtime.GOARCH`, which is a parameter here. -/

structure VMConfigM where
  imageID : String
  imageVersion : String
  diskGB : Int
  cpus : Int
  ramMB : Int
  provisionScript : String
deriving DecidableEq, Repr

structure MountM where
  host : String
  guest : String
  mode : String
deriving DecidableEq, Repr

structure ConfigM where
  provider : String
  vm : VMConfigM
  dockerImage : String
  mounts : List MountM
deriving DecidableEq, Repr

/-- `config.Default()`. -/
def defaultConfig (goarch : String) : ConfigM :=
  { provider := "auto"
    vm := { imageID := "", imageVersion := "", diskGB := 20, cpus := 2, ramMB := 2048,
            provisionScript := "" }
    dockerImage := if goarch = "arm64" then "arm64v8/debian:13" else "debian:13"
    mounts := [{ host := ".", guest := "/workspace", mode := "rw" }] }

/-- `Config.Validate` (pointer receiver: it normalizes the provider in
place and then checks; the normalized record is returned on success). -/
def validateConfig (c : ConfigM) : Except String ConfigM :=
  let c := { c with provider := normalizeProvider c.provider }
  if ¬ validProvider c.provider then .error ("invalid provider: " ++ c.provider)
  else if (c.provider = "auto" ∨ c.provider = "apple-vm") ∧ c.vm.cpus < 1 then
    .error "vm.cpus must be at least 1"
  else if (c.provider = "auto" ∨ c.provider = "apple-vm") ∧ c.vm.ramMB < 256 then
    .error "vm.ram_mb must be at least 256"
  else if (c.provider = "auto" ∨ c.provider = "apple-vm") ∧ c.vm.diskGB < 1 then
    .error "vm.disk_gb must be at least 1"
  else if (c.provider = "auto" ∨ c.provider = "docker") ∧ c.dockerImage = "" then
    .error "docker.image is required"
  else if c.mounts.any (fun m => m.host = "" || m.guest = "") then
    .error "mount.host and mount.guest are required"
  else if c.mounts.any (fun m => m.mode ≠ "ro" ∧ m.mode ≠ "rw") then
    .error "invalid mount mode"
  else .ok c

/-- `config.Save`: validate (normalizing the local copy), then marshal.
The returned value is the stored document. -/
def saveConfig (c : ConfigM) : Except String ConfigM :=
  validateConfig c

/-- `config.Load`: unmarshal (`stored`), default an empty provider to auto,
normalize it, fill zero-valued VM fields / empty docker image / empty
mounts from `Default()`, then validate. -/
def loadConfig (goarch : String) (stored : ConfigM) : Except String ConfigM :=
  let c := stored
  let c := if c.provider = "" then { c with provider := "auto" } else c
  let c := { c with provider := normalizeProvider c.provider }
  let d := defaultConfig goarch
  let c := if c.vm.cpus = 0 then { c with vm := { c.vm with cpus := d.vm.cpus } } else c
  let c := if c.vm.ramMB = 0 then { c with vm := { c.vm with ramMB := d.vm.ramMB } } else c
  let c := if c.vm.diskGB = 0 then { c with vm := { c.vm with diskGB := d.vm.diskGB } } else c
  let c := if c.dockerImage = "" then { c with dockerImage := d.dockerImage } else c
  let c := if c.mounts = [] then { c with mounts := d.mounts } else c
  validateConfig c

/-- Counterexample to C9 as stated: the configuration with provider "off",
all VM sizes zero, empty docker image and an empty mounts list passes
`Save`'s validation unchanged (the VM / docker / mount checks are all
skipped or vacuous), but `Load` fills every one of those fields from
`Default()`, so the loaded configuration differs from the saved one in the
VM settings, the docker image and the mounts list — not merely in provider
canonicalization. -/
theorem save_load_not_roundtrip :
    (saveConfig ⟨"off", ⟨"", "", 0, 0, 0, ""⟩, "", []⟩ =
      .ok ⟨"off", ⟨"", "", 0, 0, 0, ""⟩, "", []⟩) ∧
    (loadConfig "arm64" ⟨"off", ⟨"", "", 0, 0, 0, ""⟩, "", []⟩ =
      .ok ⟨"off", ⟨"", "", 20, 2, 2048, ""⟩, "arm64v8/debian:13",
            [⟨".", "/workspace", "rw"⟩]⟩) ∧
    (⟨"off", ⟨"", "", 20, 2, 2048, ""⟩, "arm64v8/debian:13",
        [⟨".", "/workspace", "rw"⟩]⟩ : ConfigM) ≠
      ⟨"off", ⟨"", "", 0, 0, 0, ""⟩, "", []⟩ := by
  refine ⟨rfl, rfl, by decide⟩

/-- C9 (amended). For every configuration that `Save` accepts whose VM
cpus / ram / disk are non-zero, whose docker image is non-empty and whose
mounts list is non-empty, `Save` then `Load` round-trips modulo provider
canonicalization: `Load` returns the configuration with the provider
normalized (legacy "macos" becomes "apple-vm") and every other field
unchanged.  (Zero-valued VM fields, an empty docker image or an empty
mounts list — which `Save` accepts for providers that do not use them —
are instead replaced by `Default()` values on load.) -/
theorem save_load_roundtrip (goarch : String) (c stored : ConfigM)
    (hsave : saveConfig c = .ok stored)
    (hcpus : c.vm.cpus ≠ 0) (hram : c.vm.ramMB ≠ 0) (hdisk : c.vm.diskGB ≠ 0)
    (himg : c.dockerImage ≠ "") (hmounts : c.mounts ≠ []) :
    loadConfig goarch stored = .ok { c with provider := normalizeProvider c.provider } := by
  have hnorm : normalizeProvider (normalizeProvider c.provider) = normalizeProvider c.provider := by
    unfold normalizeProvider
    by_cases h : c.provider = "macos" <;> simp [h]
  unfold saveConfig validateConfig at hsave
  by_cases hv : validProvider (normalizeProvider c.provider)
  case neg => simp [hv] at hsave
  simp only [hv, not_true_eq_false, if_false] at hsave
  -- Split on each validation guard to extract `stored`.
  split_ifs at hsave with h1 h2 h3 h4 h5 h6
  have hstored : stored = { c with provider := normalizeProvider c.provider } := by
    injection hsave with hh
    exact hh.symm
  subst hstored
  have hpne : normalizeProvider c.provider ≠ "" := by
    intro hh
    rw [hh] at hv
    exact absurd hv (by decide)
  unfold loadConfig
  simp only [hpne, if_false, hnorm, hcpus, hram, hdisk, himg, hmounts, if_neg]
  unfold validateConfig
  simp only [hnorm, hv, not_true_eq_false, if_false]
  rw [if_neg h1, if_neg h2, if_neg h3, if_neg h4, if_neg h5, if_neg h6]

/-- Witness for C9's amended round-trip at a concrete configuration using
the legacy "macos" provider alias. -/
theorem save_load_roundtrip_witness :
    saveConfig ⟨"macos", ⟨"debian-13", "v1", 20, 2, 2048, ""⟩, "debian:13",
        [⟨".", "/workspace", "rw"⟩]⟩ =
      .ok ⟨"apple-vm", ⟨"debian-13", "v1", 20, 2, 2048, ""⟩, "debian:13",
        [⟨".", "/workspace", "rw"⟩]⟩ ∧
    loadConfig "amd64" ⟨"apple-vm", ⟨"debian-13", "v1", 20, 2, 2048, ""⟩, "debian:13",
        [⟨".", "/workspace", "rw"⟩]⟩ =
      .ok ⟨"apple-vm", ⟨"debian-13", "v1", 20, 2, 2048, ""⟩, "debian:13",
        [⟨".", "/workspace", "rw"⟩]⟩ := by
  constructor
  · rfl
  · exact save_load_roundtrip "amd64"
      ⟨"macos", ⟨"debian-13", "v1", 20, 2, 2048, ""⟩, "debian:13", [⟨".", "/workspace", "rw"⟩]⟩
      ⟨"apple-vm", ⟨"debian-13", "v1", 20, 2, 2048, ""⟩, "debian:13", [⟨".", "/workspace", "rw"⟩]⟩
      rfl (by decide) (by decide) (by decide) (by decide) (by decide)

/-! ## Apple-VM exit marker parsing (internal/backend/macos `parseExitMarker`)

Console streams are `List Char`.  `parseExitMarker(output, marker)` in Go
compiles the regexp `QuoteMeta(marker) + (\d+)`, collects all
(non-overlapping, leftmost-first) matches with `FindAllStringSubmatch`,
takes the last one and `strconv.Atoi`s its digit group.  It is only ever
called with the fixed marker `__VIBEBOX_EXIT_CODE__`; `scanExit` embeds
the regexp scan for that marker: at each position, a match requires the
marker followed by at least one digit, captures the maximal digit run, and
the scan resumes after the match.  `Atoi` fails (only) when the value
exceeds the host's 64-bit int range. -/

def exitMarkerChars : List Char := "__VIBEBOX_EXIT_CODE__".data

def stdoutBeginChars : List Char := "__VIBEBOX_STDOUT_BEGIN__".data
def stdoutEndChars : List Char := "__VIBEBOX_STDOUT_END__".data
def stderrBeginChars : List Char := "__VIBEBOX_STDERR_BEGIN__".data
def stderrEndChars : List Char := "__VIBEBOX_STDERR_END__".data

/-- `\d` of the Go regexp engine: the ASCII digits. -/
def isDigitCh (c : Char) : Bool := '0' ≤ c ∧ c ≤ '9'

/-- Boolean prefix test on character lists. -/
def chPre : List Char → List Char → Bool
  | [], _ => true
  | _ :: _, [] => false
  | a :: as, b :: bs => a = b && chPre as bs

theorem chPre_iff (p : List Char) : ∀ s, chPre p s = true ↔ ∃ t, s = p ++ t := by
  induction p with
  | nil =>
    intro s
    simp [chPre]
  | cons a as ih =>
    intro s
    cases s with
    | nil =>
      simp only [chPre]
      constructor
      · intro h
        exact absurd h (by simp)
      · rintro ⟨t, ht⟩
        simp at ht
    | cons b bs =>
      simp only [chPre, Bool.and_eq_true, decide_eq_true_eq, ih bs]
      constructor
      · rintro ⟨rfl, t, rfl⟩
        exact ⟨t, rfl⟩
      · rintro ⟨t, ht⟩
        simp only [List.cons_append, List.cons.injEq] at ht
        exact ⟨ht.1.symm, t, ht.2⟩

/-- A regexp match starts here: the marker, then at least one digit. -/
def exitHere (s : List Char) : Bool :=
  chPre exitMarkerChars s &&
    (match s.drop 21 with
     | [] => false
     | d :: _ => isDigitCh d)

/-- The digit groups of `FindAllStringSubmatch` in scan order. -/
def scanExit (s : List Char) : List (List Char) :=
  match s with
  | [] => []
  | c :: rest =>
    if exitHere (c :: rest) then
      ((c :: rest).drop 21).takeWhile isDigitCh ::
        scanExit ((c :: rest).drop (21 + (((c :: rest).drop 21).takeWhile isDigitCh).length))
    else scanExit rest
termination_by s.length
decreasing_by
  · simp only [List.length_drop, List.length_cons]
    omega
  · simp only [List.length_cons]
    omega

/-- Numeric value of a decimal digit run. -/
def digitsVal (ds : List Char) : Nat :=
  ds.foldl (fun a c => a * 10 + (c.toNat - 48)) 0

/-- Largest value of the host's 64-bit `int`. -/
def maxGoInt : Nat := 9223372036854775807

/-- `strconv.Atoi` on a non-empty all-digit string: the value, unless it
overflows the 64-bit int range. -/
def goAtoiDigits (ds : List Char) : Option Nat :=
  if digitsVal ds ≤ maxGoInt then some (digitsVal ds) else none

/-- `parseExitMarker(output, __VIBEBOX_EXIT_CODE__)`: the last match wins;
`none` models the `(0, false)` "no usable marker" result. -/
def parseExitMarker (s : List Char) : Option Nat :=
  match (scanExit s).getLast? with
  | none => none
  | some ds => goAtoiDigits ds

/-- The last position where the marker occurs followed by a digit. -/
def lastExitPos (s : List Char) : Option Nat :=
  ((List.range s.length).filter (fun p => exitHere (s.drop p))).getLast?

/-- The integer formed by the digits immediately following position
`p + 21` (i.e. following the marker occurrence at `p`). -/
def exitValAt (s : List Char) (p : Nat) : Nat :=
  digitsVal ((s.drop (p + 21)).takeWhile isDigitCh)

theorem exitMarker_no_digit : ∀ c ∈ exitMarkerChars, isDigitCh c = false := by decide

theorem exitMarker_length : exitMarkerChars.length = 21 := by decide

theorem exitHere_decomp {s : List Char} (h : exitHere s = true) :
    ∃ d tl, s = exitMarkerChars ++ d :: tl ∧ isDigitCh d = true := by
  unfold exitHere at h
  rw [Bool.and_eq_true] at h
  obtain ⟨u, hu⟩ := (chPre_iff exitMarkerChars s).1 h.1
  have hdrop : s.drop 21 = u := by
    rw [hu, ← exitMarker_length, List.drop_left]
  rcases u with _ | ⟨d, tl⟩
  · rw [hdrop] at h
    exact absurd h.2 (by simp)
  · refine ⟨d, tl, hu, ?_⟩
    rw [hdrop] at h
    exact h.2

/-- Key no-overlap fact: when a match starts at the head of `s`, no further
match can start strictly inside its span (the marker contains no digit, so
a marker occurrence can neither end inside the digit run nor start on it). -/
theorem no_exit_inside {s : List Char} (hh : exitHere s = true) :
    ∀ q, 0 < q → q < 21 + ((s.drop 21).takeWhile isDigitCh).length →
      exitHere (s.drop q) = false := by
  intro q hq1 hq2
  obtain ⟨d, tl, hs, hd⟩ := exitHere_decomp hh
  cases hval : exitHere (s.drop q)
  · rfl
  exfalso
  obtain ⟨d', tl', hs', _⟩ := exitHere_decomp hval
  have hdrop21 : s.drop 21 = d :: tl := by
    rw [hs, ← exitMarker_length, List.drop_left]
  by_cases hq21 : q ≤ 20
  · -- The later occurrence overlaps the marker: its tail reaches the digit
    -- at index 21, so some marker character would be a digit.
    have hsq : s.drop q = exitMarkerChars.drop q ++ (d :: tl) := by
      rw [hs, List.drop_append_eq_append_drop]
      congr 1
      have : q - exitMarkerChars.length = 0 := by
        rw [exitMarker_length]; omega
      rw [this, List.drop_zero]
    rw [hs'] at hsq
    have hmain := congrArg (List.drop (21 - q)) hsq
    rw [List.drop_append_eq_append_drop, List.drop_append_eq_append_drop] at hmain
    have h1 : (21 - q) - exitMarkerChars.length = 0 := by
      rw [exitMarker_length]; omega
    have h2 : (exitMarkerChars.drop q).length = 21 - q := by
      rw [List.length_drop, exitMarker_length]
    have h3 : (exitMarkerChars.drop q).drop (21 - q) = [] := by
      rw [List.drop_eq_nil_iff, h2]
    have h4 : (21 - q) - (exitMarkerChars.drop q).length = 0 := by
      rw [h2]; omega
    rw [h1, h3, h4, List.drop_zero, List.drop_zero, List.nil_append] at hmain
    -- hmain : exitMarkerChars.drop (21 - q) ++ (d' :: tl') = d :: tl
    have hne : exitMarkerChars.drop (21 - q) ≠ [] := by
      rw [ne_eq, List.drop_eq_nil_iff, exitMarker_length]
      omega
    rcases hz : exitMarkerChars.drop (21 - q) with _ | ⟨z, zs⟩
    · exact hne hz
    rw [hz, List.cons_append, List.cons.injEq] at hmain
    have hzmem : z ∈ exitMarkerChars :=
      List.drop_subset (21 - q) exitMarkerChars (hz ▸ List.mem_cons_self z zs)
    have := exitMarker_no_digit z hzmem
    rw [hmain.1, hd] at this
    exact Bool.noConfusion this
  · -- The later occurrence starts inside the digit run: its first character
    -- is a digit, but the marker starts with an underscore.
    have hj : q - 21 < ((s.drop 21).takeWhile isDigitCh).length := by omega
    have hsq : s.drop q = ((s.drop 21).takeWhile isDigitCh).drop (q - 21) ++
        (s.drop 21).dropWhile isDigitCh := by
      have h21q : s.drop q = (s.drop 21).drop (q - 21) := by
        rw [List.drop_drop]
        congr 1
        omega
      conv_lhs => rw [h21q]
      conv_lhs => rw [← List.takeWhile_append_dropWhile isDigitCh (s.drop 21)]
      rw [List.drop_append_eq_append_drop]
      have : (q - 21) - ((s.drop 21).takeWhile isDigitCh).length = 0 := by omega
      rw [this, List.drop_zero]
    have hne : ((s.drop 21).takeWhile isDigitCh).drop (q - 21) ≠ [] := by
      rw [ne_eq, List.drop_eq_nil_iff]
      omega
    rcases hy : ((s.drop 21).takeWhile isDigitCh).drop (q - 21) with _ | ⟨y, ys⟩
    · exact hne hy
    have hymem : y ∈ (s.drop 21).takeWhile isDigitCh :=
      List.drop_subset (q - 21) _ (hy ▸ List.mem_cons_self y ys)
    have hydig : isDigitCh y = true := List.mem_takeWhile_imp hymem
    rw [hy, List.cons_append] at hsq
    rw [hs'] at hsq
    have hx : List.head? (exitMarkerChars ++ d' :: tl') = some '_' := rfl
    rw [hsq] at hx
    simp only [List.head?_cons, Option.some.injEq] at hx
    rw [hx] at hydig
    exact absurd hydig (by decide)

/-- The regexp scan finds exactly the marker-followed-by-digit positions:
an empty scan means there is none, and the last digit group of a non-empty
scan sits at a position with no later match. -/
theorem scanExit_spec : ∀ (n : Nat) (s : List Char), s.length ≤ n →
    (scanExit s = [] → ∀ p, exitHere (s.drop p) = false) ∧
    (∀ ds, (scanExit s).getLast? = some ds →
      ∃ p, exitHere (s.drop p) = true ∧
        ds = ((s.drop p).drop 21).takeWhile isDigitCh ∧
        ∀ q, p < q → exitHere (s.drop q) = false) := by
  intro n
  induction n with
  | zero =>
    intro s hs
    have hnil : s = [] := List.eq_nil_of_length_eq_zero (Nat.le_zero.1 hs)
    subst hnil
    constructor
    · intro _ p
      rw [List.drop_nil]
      rfl
    · intro ds hds
      simp only [scanExit] at hds
      exact absurd hds (by simp)
  | succ n ih =>
    intro s hs
    cases s with
    | nil =>
      constructor
      · intro _ p
        rw [List.drop_nil]
        rfl
      · intro ds hds
        simp only [scanExit] at hds
        exact absurd hds (by simp)
    | cons c rest =>
      rw [List.length_cons] at hs
      by_cases hh : exitHere (c :: rest) = true
      · have hstep : scanExit (c :: rest) =
            ((c :: rest).drop 21).takeWhile isDigitCh ::
              scanExit ((c :: rest).drop
                (21 + (((c :: rest).drop 21).takeWhile isDigitCh).length)) := by
          rw [scanExit]
          rw [if_pos hh]
        have hlen' : ((c :: rest).drop
            (21 + (((c :: rest).drop 21).takeWhile isDigitCh).length)).length ≤ n := by
          rw [List.length_drop, List.length_cons]
          omega
        have ihs := ih _ hlen'
        constructor
        · intro habs
          rw [hstep] at habs
          exact absurd habs (by simp)
        · intro ds hds
          rw [hstep] at hds
          cases hsc : scanExit ((c :: rest).drop
              (21 + (((c :: rest).drop 21).takeWhile isDigitCh).length)) with
          | nil =>
            rw [hsc] at hds
            simp only [List.getLast?_singleton, Option.some.injEq] at hds
            subst hds
            refine ⟨0, ?_, ?_, ?_⟩
            · rw [List.drop_zero]
              exact hh
            · rw [List.drop_zero]
            · intro q hq
              by_cases hqin : q < 21 + (((c :: rest).drop 21).takeWhile isDigitCh).length
              · exact no_exit_inside hh q hq hqin
              · have hre : (c :: rest).drop q = ((c :: rest).drop
                    (21 + (((c :: rest).drop 21).takeWhile isDigitCh).length)).drop
                    (q - (21 + (((c :: rest).drop 21).takeWhile isDigitCh).length)) := by
                  rw [List.drop_drop]
                  congr 1
                  omega
                rw [hre]
                exact ihs.1 hsc _
          | cons e es =>
            rw [hsc] at hds
            rw [List.getLast?_cons_cons] at hds
            have hds' : (scanExit ((c :: rest).drop
                (21 + (((c :: rest).drop 21).takeWhile isDigitCh).length))).getLast? =
                some ds := by
              rw [hsc]
              exact hds
            obtain ⟨p', hv', hd', haf'⟩ := ihs.2 ds hds'
            have hre : ∀ x, (c :: rest).drop
                (21 + (((c :: rest).drop 21).takeWhile isDigitCh).length + x) =
                ((c :: rest).drop
                  (21 + (((c :: rest).drop 21).takeWhile isDigitCh).length)).drop x := by
              intro x
              rw [List.drop_drop]
            refine ⟨21 + (((c :: rest).drop 21).takeWhile isDigitCh).length + p', ?_, ?_, ?_⟩
            · rw [hre p']
              exact hv'
            · rw [hre p']
              exact hd'
            · intro q hq
              have hq2 : 21 + (((c :: rest).drop 21).takeWhile isDigitCh).length ≤ q := by
                omega
              have hrq : (c :: rest).drop q = ((c :: rest).drop
                  (21 + (((c :: rest).drop 21).takeWhile isDigitCh).length)).drop
                  (q - (21 + (((c :: rest).drop 21).takeWhile isDigitCh).length)) := by
                rw [List.drop_drop]
                congr 1
                omega
              rw [hrq]
              exact haf' _ (by omega)
      · have hstep : scanExit (c :: rest) = scanExit rest := by
          rw [scanExit]
          rw [if_neg hh]
        have ihr := ih rest (by omega)
        constructor
        · intro habs p
          cases p with
          | zero =>
            rw [List.drop_zero]
            exact Bool.eq_false_iff.2 hh
          | succ p =>
            rw [List.drop_succ_cons]
            exact ihr.1 (hstep ▸ habs) p
        · intro ds hds
          rw [hstep] at hds
          obtain ⟨p', hv', hd', haf'⟩ := ihr.2 ds hds
          refine ⟨p' + 1, ?_, ?_, ?_⟩
          · rw [List.drop_succ_cons]
            exact hv'
          · rw [List.drop_succ_cons]
            exact hd'
          · intro q hq
            cases q with
            | zero => exact absurd hq (by omega)
            | succ q =>
              rw [List.drop_succ_cons]
              exact haf' q (by omega)

theorem getLast?_eq_of_max {l : List Nat} (hl : l.Pairwise (· < ·)) (p : Nat)
    (hp : p ∈ l) (hmax : ∀ x ∈ l, x ≤ p) : l.getLast? = some p := by
  induction l with
  | nil => cases hp
  | cons a t ih =>
    cases t with
    | nil =>
      simp only [List.mem_singleton] at hp
      subst hp
      rfl
    | cons b t2 =>
      rw [List.getLast?_cons_cons]
      rw [List.pairwise_cons] at hl
      rcases List.mem_cons.1 hp with rfl | hp'
      · have hb : b ≤ p := hmax b (by simp)
        have hpb : p < b := hl.1 b (by simp)
        omega
      · exact ih hl.2 hp' (fun x hx => hmax x (List.mem_cons_of_mem a hx))

theorem max_of_getLast? {l : List Nat} (hl : l.Pairwise (· < ·)) (p : Nat)
    (h : l.getLast? = some p) : p ∈ l ∧ ∀ x ∈ l, x ≤ p := by
  induction l with
  | nil => exact absurd h (by simp)
  | cons a t ih =>
    cases t with
    | nil =>
      simp only [List.getLast?_singleton, Option.some.injEq] at h
      subst h
      exact ⟨by simp, by simp⟩
    | cons b t2 =>
      rw [List.getLast?_cons_cons] at h
      rw [List.pairwise_cons] at hl
      obtain ⟨hmem, hmax⟩ := ih hl.2 h
      refine ⟨List.mem_cons_of_mem a hmem, ?_⟩
      intro x hx
      rcases List.mem_cons.1 hx with rfl | hx'
      · exact le_of_lt (hl.1 p hmem)
      · exact hmax x hx'

theorem lastExitPos_iff (s : List Char) (p : Nat) :
    lastExitPos s = some p ↔
      (exitHere (s.drop p) = true ∧ ∀ q, exitHere (s.drop q) = true → q ≤ p) := by
  have hpw : ((List.range s.length).filter (fun p => exitHere (s.drop p))).Pairwise (· < ·) :=
    (List.pairwise_lt_range _).filter _
  have hbound : ∀ q, exitHere (s.drop q) = true → q < s.length := by
    intro q hq
    by_contra hge
    push_neg at hge
    have hnil : s.drop q = [] := List.drop_eq_nil_iff.2 hge
    rw [hnil] at hq
    exact absurd hq (by decide)
  constructor
  · intro h
    obtain ⟨hmem, hmax⟩ := max_of_getLast? hpw p h
    rw [List.mem_filter, List.mem_range] at hmem
    refine ⟨by simpa using hmem.2, ?_⟩
    intro q hq
    exact hmax q (List.mem_filter.2 ⟨List.mem_range.2 (hbound q hq), by simpa using hq⟩)
  · rintro ⟨hv, hmax⟩
    refine getLast?_eq_of_max hpw p
      (List.mem_filter.2 ⟨List.mem_range.2 (hbound p hv), by simpa using hv⟩) ?_
    intro x hx
    rw [List.mem_filter] at hx
    exact hmax x (by simpa using hx.2)

/-- Core correspondence: `parseExitMarker` returns the value of the digit
run at the last marker-with-digits position. -/
theorem parseExitMarker_eq_lastPos (s : List Char) (p : Nat)
    (hp : lastExitPos s = some p) (hbound : exitValAt s p ≤ maxGoInt) :
    parseExitMarker s = some (exitValAt s p) := by
  obtain ⟨hv, hmax⟩ := (lastExitPos_iff s p).1 hp
  have hspec := scanExit_spec s.length s le_rfl
  cases hl : (scanExit s).getLast? with
  | none =>
    have hnil : scanExit s = [] := List.getLast?_eq_none_iff.1 hl
    have hfalse := hspec.1 hnil p
    rw [hv] at hfalse
    exact absurd hfalse (by decide)
  | some ds =>
    obtain ⟨p', hv', hd', haf'⟩ := hspec.2 ds hl
    have h1 : p' ≤ p := hmax p' hv'
    have h2 : p ≤ p' := by
      by_contra hgt
      push_neg at hgt
      have hfalse := haf' p hgt
      rw [hv] at hfalse
      exact absurd hfalse (by decide)
    have hpp : p' = p := le_antisymm h1 h2
    subst hpp
    have hds : ds = (s.drop (p' + 21)).takeWhile isDigitCh := by
      rw [hd', List.drop_drop]
    have hb2 : digitsVal ds ≤ maxGoInt := by
      rw [hds]
      exact hbound
    unfold parseExitMarker
    rw [hl]
    show goAtoiDigits ds = some (exitValAt s p')
    unfold goAtoiDigits
    rw [if_pos hb2]
    unfold exitValAt
    rw [hds]

/-- C1. For every console stream, the exit code recovered by
`parseExitMarker` is the integer formed by the decimal digits immediately
following the last occurrence of `__VIBEBOX_EXIT_CODE__` that is followed
by digits (`lastExitPos`); in particular, in the console stream produced
by `printf '__VIBEBOX_EXIT_CODE__7\n'; exit 0` under the exec framing
script, the last marker — the one printed by the framing script — wins and
the recovered exit code is 0, not 7 (see the witness). -/
theorem exit_code_last_marker (s : List Char) (p : Nat)
    (hp : lastExitPos s = some p) (hbound : exitValAt s p ≤ maxGoInt) :
    parseExitMarker s = some (exitValAt s p) :=
  parseExitMarker_eq_lastPos s p hp hbound

/-- The console stream a guest produces for
`printf '__VIBEBOX_EXIT_CODE__7\n'; exit 0` under the framing script:
stdout is `__VIBEBOX_EXIT_CODE__7\n`, stderr is empty, and the script's
own exit marker carries `0`. -/
def exC1 : List Char :=
  ("__VIBEBOX_STDOUT_BEGIN__\n__VIBEBOX_EXIT_CODE__7\n\n__VIBEBOX_STDOUT_END__\n" ++
   "__VIBEBOX_STDERR_BEGIN__\n\n__VIBEBOX_STDERR_END__\n__VIBEBOX_EXIT_CODE__0\n").data

set_option maxRecDepth 40000 in
/-- Witness for C1: on the `printf '__VIBEBOX_EXIT_CODE__7\n'; exit 0`
stream, the last marker position is the framing script's (121, carrying 0,
not the command's 7 at position 25), and the parser recovers 0. -/
theorem exit_code_last_marker_witness :
    lastExitPos exC1 = some 121 ∧ exitValAt exC1 121 = 0 ∧
      parseExitMarker exC1 = some 0 := by
  refine ⟨by decide, by decide, ?_⟩
  have h := exit_code_last_marker exC1 121 (by decide) (by decide)
  rw [(by decide : exitValAt exC1 121 = 0)] at h
  exact h

/-! ## Structured exec output parsing (internal/backend/macos
`parseStructuredExecOutput` / `extractBetweenMarkers`)

`extractBetweenMarkers` takes the substring between `strings.LastIndex` of
the begin marker and the following `strings.Index` of the end marker;
`parseStructuredExecOutput` combines both extractions with the exit-marker
parse and trims one leading newline from each stream
(`strings.TrimPrefix(s, "\n")`).

`framedConsole out err rc` is the console stream the framing script of
`buildExecScript` produces for a command with captured stdout `out`,
stderr `err` and exit status `rc`:
`printf 'SB\n'; cat out; printf '\nSE\n'; printf 'EB\n'; cat err;
printf '\nEE\n'; printf 'EX%s\n' rc`. -/

def occurAt (pat s : List Char) (i : Nat) : Bool := chPre pat (s.drop i)

/-- `strings.Contains`-style Boolean infix test. -/
def hasInfix (pat s : List Char) : Bool :=
  (List.range (s.length + 1)).any (fun i => chPre pat (s.drop i))

/-- `strings.Index`: position of the first occurrence. -/
def goIndexOf (s pat : List Char) : Option Nat :=
  ((List.range (s.length + 1)).filter (occurAt pat s)).head?

/-- `strings.LastIndex`: position of the last occurrence. -/
def goLastIndexOf (s pat : List Char) : Option Nat :=
  ((List.range (s.length + 1)).filter (occurAt pat s)).getLast?

/-- `extractBetweenMarkers`. -/
def extractBetweenMarkers (output begin_ end_ : List Char) : Option (List Char) :=
  match goLastIndexOf output begin_ with
  | none => none
  | some start =>
    match goIndexOf (output.drop (start + begin_.length)) end_ with
    | none => none
    | some fin => some ((output.drop (start + begin_.length)).take fin)

/-- `strings.TrimPrefix(s, "\n")`. -/
def trimPrefixNl : List Char → List Char
  | [] => []
  | c :: rest => if c = '\n' then rest else c :: rest

/-- `parseStructuredExecOutput`. -/
def parseStructuredExecOutput (output : List Char) :
    Option (List Char × List Char × Nat) :=
  match parseExitMarker output with
  | none => none
  | some code =>
    match extractBetweenMarkers output stdoutBeginChars stdoutEndChars with
    | none => none
    | some so =>
      match extractBetweenMarkers output stderrBeginChars stderrEndChars with
      | none => none
      | some se => some (trimPrefixNl so, trimPrefixNl se, code)

/-- Decimal digit character of `0 ≤ n < 10`. -/
def digitChar (n : Nat) : Char := Char.ofNat (48 + n)

/-- Decimal representation, as the shell prints `"$rc"`. -/
def natDigits (n : Nat) : List Char :=
  if _h : n < 10 then [digitChar n]
  else natDigits (n / 10) ++ [digitChar (n % 10)]
decreasing_by
  exact Nat.div_lt_self (by omega) (by omega)

/-- The console stream produced by the framing script. -/
def framedConsole (out err : List Char) (rc : Nat) : List Char :=
  stdoutBeginChars ++ '\n' ::
    (out ++ '\n' ::
      (stdoutEndChars ++ '\n' ::
        (stderrBeginChars ++ '\n' ::
          (err ++ '\n' ::
            (stderrEndChars ++ '\n' ::
              (exitMarkerChars ++ (natDigits rc ++ ['\n'])))))))

theorem digitChar_isDigit {n : Nat} (h : n < 10) : isDigitCh (digitChar n) = true := by
  interval_cases n <;> decide

theorem digitChar_toNat {n : Nat} (h : n < 10) : (digitChar n).toNat - 48 = n := by
  interval_cases n <;> decide

theorem natDigits_ne_nil (n : Nat) : natDigits n ≠ [] := by
  rw [natDigits]
  split
  · simp
  · simp

theorem natDigits_all_digits (n : Nat) : ∀ c ∈ natDigits n, isDigitCh c = true := by
  induction n using Nat.strong_induction_on with
  | _ n ih =>
    rw [natDigits]
    split
    · next h =>
      intro c hc
      simp only [List.mem_singleton] at hc
      subst hc
      exact digitChar_isDigit h
    · next h =>
      intro c hc
      rw [List.mem_append] at hc
      rcases hc with hc | hc
      · exact ih (n / 10) (Nat.div_lt_self (by omega) (by omega)) c hc
      · simp only [List.mem_singleton] at hc
        subst hc
        exact digitChar_isDigit (Nat.mod_lt n (by omega))

theorem digitsVal_append_one (ds : List Char) (c : Char) :
    digitsVal (ds ++ [c]) = digitsVal ds * 10 + (c.toNat - 48) := by
  unfold digitsVal
  rw [List.foldl_append]
  rfl

theorem digitsVal_natDigits (n : Nat) : digitsVal (natDigits n) = n := by
  induction n using Nat.strong_induction_on with
  | _ n ih =>
    rw [natDigits]
    split
    · next h =>
      show digitsVal [digitChar n] = n
      unfold digitsVal
      simp only [List.foldl_cons, List.foldl_nil, Nat.zero_mul, Nat.zero_add]
      exact digitChar_toNat h
    · next h =>
      rw [digitsVal_append_one, ih (n / 10) (Nat.div_lt_self (by omega) (by omega)),
        digitChar_toNat (Nat.mod_lt n (by omega))]
      omega

theorem chPre_append_left (pat : List Char) :
    ∀ A B, chPre pat (A ++ B) = true → pat.length ≤ A.length → chPre pat A = true := by
  induction pat with
  | nil =>
    intro A B _ _
    rfl
  | cons p ps ih =>
    intro A B h hlen
    cases A with
    | nil => simp at hlen
    | cons a as =>
      rw [List.cons_append] at h
      unfold chPre at h ⊢
      rw [Bool.and_eq_true] at h ⊢
      refine ⟨h.1, ih as B h.2 ?_⟩
      simp only [List.length_cons] at hlen
      omega

theorem chPre_mem_of_short (pat : List Char) :
    ∀ A B c, chPre pat (A ++ c :: B) = true → A.length < pat.length → c ∈ pat := by
  induction pat with
  | nil =>
    intro A B c _ hlen
    simp at hlen
  | cons p ps ih =>
    intro A B c h hlen
    cases A with
    | nil =>
      rw [List.nil_append] at h
      unfold chPre at h
      rw [Bool.and_eq_true, decide_eq_true_eq] at h
      rw [h.1]
      exact List.mem_cons_self c ps
    | cons a as =>
      rw [List.cons_append] at h
      unfold chPre at h
      rw [Bool.and_eq_true] at h
      simp only [List.length_cons] at hlen
      exact List.mem_cons_of_mem p (ih as B c h.2 (by omega))

/-- Occurrences of a newline-free pattern in `X ++ '\n' :: Y` lie entirely
inside `X` or entirely inside `Y`. -/
theorem occ_split {pat : List Char} (hnl : ¬ '\n' ∈ pat) (X Y : List Char) (i : Nat)
    (h : chPre pat ((X ++ '\n' :: Y).drop i) = true) :
    (i + pat.length ≤ X.length ∧ chPre pat (X.drop i) = true) ∨
    (X.length + 1 ≤ i ∧ chPre pat (Y.drop (i - (X.length + 1))) = true) := by
  by_cases hi : i ≤ X.length
  · have hdrop : (X ++ '\n' :: Y).drop i = X.drop i ++ '\n' :: Y := by
      rw [List.drop_append_eq_append_drop]
      have : i - X.length = 0 := by omega
      rw [this, List.drop_zero]
    rw [hdrop] at h
    by_cases hroom : pat.length ≤ (X.drop i).length
    · left
      refine ⟨?_, chPre_append_left pat (X.drop i) ('\n' :: Y) h hroom⟩
      rw [List.length_drop] at hroom
      omega
    · push_neg at hroom
      exact absurd (chPre_mem_of_short pat (X.drop i) Y '\n' h hroom) hnl
  · right
    push_neg at hi
    refine ⟨by omega, ?_⟩
    have hdrop : (X ++ '\n' :: Y).drop i = Y.drop (i - (X.length + 1)) := by
      rw [List.drop_append_eq_append_drop]
      have h1 : X.drop i = [] := List.drop_eq_nil_iff.2 (by omega)
      have h2 : i - X.length = (i - X.length - 1) + 1 := by omega
      rw [h1, List.nil_append, h2, List.drop_succ_cons]
      congr 1
    rw [hdrop] at h
    exact h

theorem hasInfix_eq_false (pat s : List Char) (h : hasInfix pat s = false) :
    ∀ i, chPre pat (s.drop i) = false := by
  have hall : ∀ j, j ≤ s.length → chPre pat (s.drop j) = false := by
    intro j hj
    cases hc : chPre pat (s.drop j)
    · rfl
    · exfalso
      have htrue : hasInfix pat s = true :=
        List.any_eq_true.2 ⟨j, List.mem_range.2 (by omega), hc⟩
      rw [h] at htrue
      exact Bool.noConfusion htrue
  intro i
  by_cases hi : i ≤ s.length
  · exact hall i hi
  · push_neg at hi
    have hnil : s.drop i = [] := List.drop_eq_nil_iff.2 (by omega)
    have hlen : s.drop s.length = [] := List.drop_eq_nil_iff.2 le_rfl
    have hres := hall s.length le_rfl
    rw [hlen] at hres
    rw [hnil]
    exact hres

theorem head?_eq_of_min {l : List Nat} (hl : l.Pairwise (· < ·)) (p : Nat)
    (hp : p ∈ l) (hmin : ∀ x ∈ l, p ≤ x) : l.head? = some p := by
  cases l with
  | nil => cases hp
  | cons a t =>
    rcases List.mem_cons.1 hp with rfl | hp'
    · rfl
    · rw [List.pairwise_cons] at hl
      have h1 : a < p := hl.1 p hp'
      have h2 : p ≤ a := hmin a (by simp)
      omega

theorem occ_le_length {pat s : List Char} {q : Nat} (hpat : pat ≠ [])
    (hq : occurAt pat s q = true) : q ≤ s.length := by
  by_contra hgt
  push_neg at hgt
  unfold occurAt at hq
  rw [List.drop_eq_nil_iff.2 (by omega)] at hq
  cases pat with
  | nil => exact hpat rfl
  | cons a as => exact Bool.noConfusion hq

theorem goLastIndexOf_eq (s pat : List Char) (hpat : pat ≠ []) (p : Nat)
    (hocc : occurAt pat s p = true) (hmax : ∀ q, occurAt pat s q = true → q ≤ p) :
    goLastIndexOf s pat = some p := by
  refine getLast?_eq_of_max ((List.pairwise_lt_range _).filter _) p
    (List.mem_filter.2 ⟨List.mem_range.2 ?_, hocc⟩) ?_
  · have := occ_le_length hpat hocc
    omega
  · intro x hx
    rw [List.mem_filter] at hx
    exact hmax x hx.2

theorem goIndexOf_eq (s pat : List Char) (hpat : pat ≠ []) (p : Nat)
    (hocc : occurAt pat s p = true) (hmin : ∀ q, occurAt pat s q = true → p ≤ q) :
    goIndexOf s pat = some p := by
  refine head?_eq_of_min ((List.pairwise_lt_range _).filter _) p
    (List.mem_filter.2 ⟨List.mem_range.2 ?_, hocc⟩) ?_
  · have := occ_le_length hpat hocc
    omega
  · intro x hx
    rw [List.mem_filter] at hx
    exact hmin x hx.2

/-- No pattern that is marker-length or longer, newline-free and digit-free
occurs in the exit tail `EX ++ digits ++ "\n"` at a position `i` with
`21 - i < pat.length` (for the five marker patterns this is every
position; for the exit marker itself, every position except 0). -/
theorem no_occ_exit_tail (pat : List Char) (hne : pat ≠ []) (hnl : ¬ '\n' ∈ pat)
    (hnd : ∀ c ∈ pat, isDigitCh c = false) (digits : List Char) (hd : digits ≠ [])
    (hdig : ∀ c ∈ digits, isDigitCh c = true) (i : Nat)
    (hips : 21 - i < pat.length) :
    chPre pat ((exitMarkerChars ++ (digits ++ ['\n'])).drop i) = false := by
  cases hc : chPre pat ((exitMarkerChars ++ (digits ++ ['\n'])).drop i)
  · rfl
  exfalso
  by_cases hi : i ≤ 21
  · have hdrop : (exitMarkerChars ++ (digits ++ ['\n'])).drop i =
        exitMarkerChars.drop i ++ (digits ++ ['\n']) := by
      rw [List.drop_append_eq_append_drop]
      have : i - exitMarkerChars.length = 0 := by
        rw [exitMarker_length]; omega
      rw [this, List.drop_zero]
    rw [hdrop] at hc
    rcases digits with _ | ⟨d, ds⟩
    · exact hd rfl
    rw [List.cons_append] at hc
    have hdm : d ∈ pat := by
      refine chPre_mem_of_short pat (exitMarkerChars.drop i) (ds ++ ['\n']) d hc ?_
      rw [List.length_drop, exitMarker_length]
      omega
    have h1 := hnd d hdm
    have h2 := hdig d (List.mem_cons_self d ds)
    rw [h1] at h2
    exact Bool.noConfusion h2
  · push_neg at hi
    have hdrop : (exitMarkerChars ++ (digits ++ ['\n'])).drop i =
        (digits ++ ['\n']).drop (i - 21) := by
      rw [List.drop_append_eq_append_drop]
      have h1 : exitMarkerChars.drop i = [] := by
        rw [List.drop_eq_nil_iff, exitMarker_length]
        omega
      have h2 : i - exitMarkerChars.length = i - 21 := by
        rw [exitMarker_length]
      rw [h1, h2, List.nil_append]
    rw [hdrop] at hc
    rcases hdd : (digits ++ ['\n']).drop (i - 21) with _ | ⟨y, ys⟩
    · rw [hdd] at hc
      cases pat with
      | nil => exact hne rfl
      | cons p ps => exact Bool.noConfusion hc
    · rw [hdd] at hc
      cases pat with
      | nil => exact hne rfl
      | cons p ps =>
        unfold chPre at hc
        rw [Bool.and_eq_true, decide_eq_true_eq] at hc
        have hym : y ∈ digits ++ ['\n'] :=
          List.drop_subset (i - 21) _ (hdd ▸ List.mem_cons_self y ys)
        rw [List.mem_append, List.mem_singleton] at hym
        rcases hym with hym | rfl
        · have h1 := hnd p (List.mem_cons_self p ps)
          rw [hc.1] at h1
          have h2 := hdig y hym
          rw [h1] at h2
          exact Bool.noConfusion h2
        · exact hnl (hc.1 ▸ List.mem_cons_self p ps)

theorem sb_len : stdoutBeginChars.length = 24 := rfl
theorem se_len : stdoutEndChars.length = 22 := rfl
theorem eb_len : stderrBeginChars.length = 24 := rfl
theorem ee_len : stderrEndChars.length = 22 := rfl

/-- Any occurrence of a newline-free pattern in a framed console stream
lies entirely inside one of the seven newline-delimited segments. -/
theorem framed_occ (pat out err : List Char) (rc : Nat) (hnl : ¬ '\n' ∈ pat)
    (i : Nat) (h : chPre pat ((framedConsole out err rc).drop i) = true) :
    (i + pat.length ≤ 24 ∧ chPre pat (stdoutBeginChars.drop i) = true) ∨
    (25 ≤ i ∧ i + pat.length ≤ 25 + out.length ∧
      chPre pat (out.drop (i - 25)) = true) ∨
    (26 + out.length ≤ i ∧ i + pat.length ≤ 48 + out.length ∧
      chPre pat (stdoutEndChars.drop (i - (26 + out.length))) = true) ∨
    (49 + out.length ≤ i ∧ i + pat.length ≤ 73 + out.length ∧
      chPre pat (stderrBeginChars.drop (i - (49 + out.length))) = true) ∨
    (74 + out.length ≤ i ∧ i + pat.length ≤ 74 + out.length + err.length ∧
      chPre pat (err.drop (i - (74 + out.length))) = true) ∨
    (75 + out.length + err.length ≤ i ∧ i + pat.length ≤ 97 + out.length + err.length ∧
      chPre pat (stderrEndChars.drop (i - (75 + out.length + err.length))) = true) ∨
    (98 + out.length + err.length ≤ i ∧
      chPre pat ((exitMarkerChars ++ (natDigits rc ++ ['\n'])).drop
        (i - (98 + out.length + err.length))) = true) := by
  rw [framedConsole] at h
  rcases occ_split hnl _ _ i h with ⟨hb, hc⟩ | ⟨hge1, h1⟩
  · exact Or.inl ⟨by rw [sb_len] at hb; exact hb, hc⟩
  rw [sb_len] at hge1 h1
  rcases occ_split hnl _ _ (i - (24 + 1)) h1 with ⟨hb, hc⟩ | ⟨hge2, h2⟩
  · refine Or.inr (Or.inl ⟨by omega, by omega, ?_⟩)
    have he : i - (24 + 1) = i - 25 := by omega
    rw [he] at hc
    exact hc
  rcases occ_split hnl _ _ (i - (24 + 1) - (out.length + 1)) h2 with ⟨hb, hc⟩ | ⟨hge3, h3⟩
  · rw [se_len] at hb
    refine Or.inr (Or.inr (Or.inl ⟨by omega, by omega, ?_⟩))
    have he : i - (24 + 1) - (out.length + 1) = i - (26 + out.length) := by omega
    rw [he] at hc
    exact hc
  rw [se_len] at hge3 h3
  rcases occ_split hnl _ _ (i - (24 + 1) - (out.length + 1) - (22 + 1)) h3 with
    ⟨hb, hc⟩ | ⟨hge4, h4⟩
  · rw [eb_len] at hb
    refine Or.inr (Or.inr (Or.inr (Or.inl ⟨by omega, by omega, ?_⟩)))
    have he : i - (24 + 1) - (out.length + 1) - (22 + 1) = i - (49 + out.length) := by omega
    rw [he] at hc
    exact hc
  rw [eb_len] at hge4 h4
  rcases occ_split hnl _ _ (i - (24 + 1) - (out.length + 1) - (22 + 1) - (24 + 1)) h4 with
    ⟨hb, hc⟩ | ⟨hge5, h5⟩
  · refine Or.inr (Or.inr (Or.inr (Or.inr (Or.inl ⟨by omega, by omega, ?_⟩))))
    have he : i - (24 + 1) - (out.length + 1) - (22 + 1) - (24 + 1) =
        i - (74 + out.length) := by omega
    rw [he] at hc
    exact hc
  rcases occ_split hnl _ _
      (i - (24 + 1) - (out.length + 1) - (22 + 1) - (24 + 1) - (err.length + 1)) h5 with
    ⟨hb, hc⟩ | ⟨hge6, h6⟩
  · rw [ee_len] at hb
    refine Or.inr (Or.inr (Or.inr (Or.inr (Or.inr (Or.inl ⟨by omega, by omega, ?_⟩)))))
    have he : i - (24 + 1) - (out.length + 1) - (22 + 1) - (24 + 1) - (err.length + 1) =
        i - (75 + out.length + err.length) := by omega
    rw [he] at hc
    exact hc
  rw [ee_len] at hge6 h6
  refine Or.inr (Or.inr (Or.inr (Or.inr (Or.inr (Or.inr ⟨by omega, ?_⟩)))))
  have he : i - (24 + 1) - (out.length + 1) - (22 + 1) - (24 + 1) - (err.length + 1) -
      (22 + 1) = i - (98 + out.length + err.length) := by omega
  rw [he] at h6
  exact h6

theorem drop_eq_of_append (A R : List Char) (n : Nat) (hA : A.length = n) :
    (A ++ R).drop n = R := by
  subst hA
  exact List.drop_left A R

theorem take_eq_of_append (A R : List Char) (n : Nat) (hA : A.length = n) :
    (A ++ R).take n = A := by
  subst hA
  exact List.take_left A R

theorem framed_drop_24 (out err : List Char) (rc : Nat) :
    (framedConsole out err rc).drop 24 =
      '\n' :: (out ++ '\n' :: (stdoutEndChars ++ '\n' :: (stderrBeginChars ++ '\n' ::
        (err ++ '\n' :: (stderrEndChars ++ '\n' ::
          (exitMarkerChars ++ (natDigits rc ++ ['\n']))))))) := by
  rw [framedConsole]
  exact drop_eq_of_append _ _ _ sb_len

theorem framed_drop_26 (out err : List Char) (rc : Nat) :
    (framedConsole out err rc).drop (26 + out.length) =
      stdoutEndChars ++ '\n' :: (stderrBeginChars ++ '\n' ::
        (err ++ '\n' :: (stderrEndChars ++ '\n' ::
          (exitMarkerChars ++ (natDigits rc ++ ['\n']))))) := by
  have hsplit : framedConsole out err rc =
      (stdoutBeginChars ++ '\n' :: (out ++ ['\n'])) ++
        (stdoutEndChars ++ '\n' :: (stderrBeginChars ++ '\n' ::
          (err ++ '\n' :: (stderrEndChars ++ '\n' ::
            (exitMarkerChars ++ (natDigits rc ++ ['\n'])))))) := by
    rw [framedConsole]
    simp [List.append_assoc]
  rw [hsplit]
  refine drop_eq_of_append _ _ _ ?_
  simp only [List.length_append, List.length_cons, sb_len, List.length_singleton, List.length_nil]
  omega

theorem framed_drop_49 (out err : List Char) (rc : Nat) :
    (framedConsole out err rc).drop (49 + out.length) =
      stderrBeginChars ++ '\n' :: (err ++ '\n' :: (stderrEndChars ++ '\n' ::
        (exitMarkerChars ++ (natDigits rc ++ ['\n'])))) := by
  have hsplit : framedConsole out err rc =
      (stdoutBeginChars ++ '\n' :: (out ++ '\n' :: (stdoutEndChars ++ ['\n']))) ++
        (stderrBeginChars ++ '\n' :: (err ++ '\n' :: (stderrEndChars ++ '\n' ::
          (exitMarkerChars ++ (natDigits rc ++ ['\n']))))) := by
    rw [framedConsole]
    simp [List.append_assoc]
  rw [hsplit]
  refine drop_eq_of_append _ _ _ ?_
  simp only [List.length_append, List.length_cons, sb_len, se_len, List.length_singleton, List.length_nil]
  omega

theorem framed_drop_73 (out err : List Char) (rc : Nat) :
    (framedConsole out err rc).drop (73 + out.length) =
      '\n' :: (err ++ '\n' :: (stderrEndChars ++ '\n' ::
        (exitMarkerChars ++ (natDigits rc ++ ['\n'])))) := by
  have hsplit : framedConsole out err rc =
      (stdoutBeginChars ++ '\n' :: (out ++ '\n' :: (stdoutEndChars ++ '\n' ::
          stderrBeginChars))) ++
        ('\n' :: (err ++ '\n' :: (stderrEndChars ++ '\n' ::
          (exitMarkerChars ++ (natDigits rc ++ ['\n']))))) := by
    rw [framedConsole]
    simp [List.append_assoc]
  rw [hsplit]
  refine drop_eq_of_append _ _ _ ?_
  simp only [List.length_append, List.length_cons, sb_len, se_len, eb_len]
  omega

theorem framed_drop_75 (out err : List Char) (rc : Nat) :
    (framedConsole out err rc).drop (75 + out.length + err.length) =
      stderrEndChars ++ '\n' :: (exitMarkerChars ++ (natDigits rc ++ ['\n'])) := by
  have hsplit : framedConsole out err rc =
      (stdoutBeginChars ++ '\n' :: (out ++ '\n' :: (stdoutEndChars ++ '\n' ::
          (stderrBeginChars ++ '\n' :: (err ++ ['\n']))))) ++
        (stderrEndChars ++ '\n' :: (exitMarkerChars ++ (natDigits rc ++ ['\n']))) := by
    rw [framedConsole]
    simp [List.append_assoc]
  rw [hsplit]
  refine drop_eq_of_append _ _ _ ?_
  simp only [List.length_append, List.length_cons, sb_len, se_len, eb_len,
    List.length_singleton, List.length_nil]
  omega

theorem framed_drop_98 (out err : List Char) (rc : Nat) :
    (framedConsole out err rc).drop (98 + out.length + err.length) =
      exitMarkerChars ++ (natDigits rc ++ ['\n']) := by
  have hsplit : framedConsole out err rc =
      (stdoutBeginChars ++ '\n' :: (out ++ '\n' :: (stdoutEndChars ++ '\n' ::
          (stderrBeginChars ++ '\n' :: (err ++ '\n' :: (stderrEndChars ++ ['\n'])))))) ++
        (exitMarkerChars ++ (natDigits rc ++ ['\n'])) := by
    rw [framedConsole]
    simp [List.append_assoc]
  rw [hsplit]
  refine drop_eq_of_append _ _ _ ?_
  simp only [List.length_append, List.length_cons, sb_len, se_len, eb_len, ee_len,
    List.length_singleton, List.length_nil]
  omega

theorem framed_drop_119 (out err : List Char) (rc : Nat) :
    (framedConsole out err rc).drop (119 + out.length + err.length) =
      natDigits rc ++ ['\n'] := by
  have hsplit : framedConsole out err rc =
      (stdoutBeginChars ++ '\n' :: (out ++ '\n' :: (stdoutEndChars ++ '\n' ::
          (stderrBeginChars ++ '\n' :: (err ++ '\n' :: (stderrEndChars ++ '\n' ::
            exitMarkerChars)))))) ++
        (natDigits rc ++ ['\n']) := by
    rw [framedConsole]
    simp [List.append_assoc]
  rw [hsplit]
  refine drop_eq_of_append _ _ _ ?_
  simp only [List.length_append, List.length_cons, sb_len, se_len, eb_len, ee_len,
    exitMarker_length]
  omega

theorem takeWhile_digits_append (l : List Char) (hall : ∀ c ∈ l, isDigitCh c = true) :
    (l ++ ['\n']).takeWhile isDigitCh = l := by
  induction l with
  | nil => decide
  | cons c cs ih =>
    rw [List.cons_append, List.takeWhile_cons]
    rw [hall c (List.mem_cons_self c cs)]
    simp only [if_true]
    rw [ih (fun x hx => hall x (List.mem_cons_of_mem c hx))]

theorem take_seg (x Z : List Char) :
    ('\n' :: (x ++ '\n' :: Z)).take (x.length + 2) = '\n' :: (x ++ ['\n']) := by
  have hsplit : '\n' :: (x ++ '\n' :: Z) = ('\n' :: (x ++ ['\n'])) ++ Z := by simp
  rw [hsplit]
  refine take_eq_of_append _ _ _ ?_
  simp only [List.length_cons, List.length_append, List.length_singleton, List.length_nil]

theorem extractBetweenMarkers_eq (output begin_ end_ : List Char) (s f : Nat)
    (hs : goLastIndexOf output begin_ = some s)
    (hf : goIndexOf (output.drop (s + begin_.length)) end_ = some f) :
    extractBetweenMarkers output begin_ end_ =
      some ((output.drop (s + begin_.length)).take f) := by
  unfold extractBetweenMarkers
  simp only [hs, hf]

theorem framed_sb_last (out err : List Char) (rc : Nat)
    (hSBout : hasInfix stdoutBeginChars out = false)
    (hSBerr : hasInfix stdoutBeginChars err = false) :
    goLastIndexOf (framedConsole out err rc) stdoutBeginChars = some 0 := by
  refine goLastIndexOf_eq _ _ (by decide) 0 ?_ ?_
  · unfold occurAt
    rw [List.drop_zero, framedConsole]
    exact (chPre_iff _ _).2 ⟨_, rfl⟩
  · intro q hq
    unfold occurAt at hq
    rcases framed_occ _ out err rc (by decide) q hq with h | h | h | h | h | h | h
    · have h1 := h.1
      rw [sb_len] at h1
      omega
    · have hfalse := hasInfix_eq_false _ _ hSBout (q - 25)
      rw [h.2.2] at hfalse
      exact Bool.noConfusion hfalse
    · have h1 := h.1
      have h2 := h.2.1
      rw [sb_len] at h2
      omega
    · have h1 := h.1
      have h2 := h.2.1
      rw [sb_len] at h2
      have hk : q - (49 + out.length) = 0 := by omega
      have hc := h.2.2
      rw [hk, List.drop_zero] at hc
      exact absurd hc (by decide)
    · have hfalse := hasInfix_eq_false _ _ hSBerr (q - (74 + out.length))
      rw [h.2.2] at hfalse
      exact Bool.noConfusion hfalse
    · have h1 := h.1
      have h2 := h.2.1
      rw [sb_len] at h2
      omega
    · have hfalse := no_occ_exit_tail stdoutBeginChars (by decide) (by decide) (by decide)
        (natDigits rc) (natDigits_ne_nil rc) (natDigits_all_digits rc)
        (q - (98 + out.length + err.length)) (by rw [sb_len]; omega)
      rw [h.2] at hfalse
      exact Bool.noConfusion hfalse

theorem framed_se_first (out err : List Char) (rc : Nat)
    (hSEout : hasInfix stdoutEndChars out = false) :
    goIndexOf ((framedConsole out err rc).drop 24) stdoutEndChars
      = some (out.length + 2) := by
  refine goIndexOf_eq _ _ (by decide) _ ?_ ?_
  · unfold occurAt
    rw [List.drop_drop]
    rw [show 24 + (out.length + 2) = 26 + out.length from by omega, framed_drop_26]
    exact (chPre_iff _ _).2 ⟨_, rfl⟩
  · intro q hq
    unfold occurAt at hq
    rw [List.drop_drop] at hq
    rcases framed_occ stdoutEndChars out err rc (by decide) (24 + q) hq
      with h | h | h | h | h | h | h
    · have h1 := h.1
      rw [se_len] at h1
      omega
    · have hfalse := hasInfix_eq_false _ _ hSEout (24 + q - 25)
      rw [h.2.2] at hfalse
      exact Bool.noConfusion hfalse
    · have h1 := h.1
      omega
    · have h1 := h.1
      omega
    · have h1 := h.1
      omega
    · have h1 := h.1
      omega
    · have h1 := h.1
      omega

theorem framed_eb_last (out err : List Char) (rc : Nat)
    (hEBerr : hasInfix stderrBeginChars err = false) :
    goLastIndexOf (framedConsole out err rc) stderrBeginChars
      = some (49 + out.length) := by
  refine goLastIndexOf_eq _ _ (by decide) _ ?_ ?_
  · unfold occurAt
    rw [framed_drop_49]
    exact (chPre_iff _ _).2 ⟨_, rfl⟩
  · intro q hq
    unfold occurAt at hq
    rcases framed_occ _ out err rc (by decide) q hq with h | h | h | h | h | h | h
    · have h1 := h.1
      rw [eb_len] at h1
      omega
    · have h2 := h.2.1
      omega
    · have h2 := h.2.1
      omega
    · have h1 := h.1
      have h2 := h.2.1
      rw [eb_len] at h2
      omega
    · have hfalse := hasInfix_eq_false _ _ hEBerr (q - (74 + out.length))
      rw [h.2.2] at hfalse
      exact Bool.noConfusion hfalse
    · have h1 := h.1
      have h2 := h.2.1
      rw [eb_len] at h2
      omega
    · have hfalse := no_occ_exit_tail stderrBeginChars (by decide) (by decide) (by decide)
        (natDigits rc) (natDigits_ne_nil rc) (natDigits_all_digits rc)
        (q - (98 + out.length + err.length)) (by rw [eb_len]; omega)
      rw [h.2] at hfalse
      exact Bool.noConfusion hfalse

theorem framed_ee_first (out err : List Char) (rc : Nat)
    (hEEerr : hasInfix stderrEndChars err = false) :
    goIndexOf ((framedConsole out err rc).drop (73 + out.length)) stderrEndChars
      = some (err.length + 2) := by
  refine goIndexOf_eq _ _ (by decide) _ ?_ ?_
  · unfold occurAt
    rw [List.drop_drop]
    rw [show 73 + out.length + (err.length + 2) = 75 + out.length + err.length from by omega,
      framed_drop_75]
    exact (chPre_iff _ _).2 ⟨_, rfl⟩
  · intro q hq
    unfold occurAt at hq
    rw [List.drop_drop] at hq
    rcases framed_occ stderrEndChars out err rc (by decide) (73 + out.length + q) hq
      with h | h | h | h | h | h | h
    · have h1 := h.1
      omega
    · have h2 := h.2.1
      omega
    · have h2 := h.2.1
      omega
    · have h2 := h.2.1
      rw [ee_len] at h2
      omega
    · have hfalse := hasInfix_eq_false _ _ hEEerr (73 + out.length + q - (74 + out.length))
      rw [h.2.2] at hfalse
      exact Bool.noConfusion hfalse
    · have h1 := h.1
      omega
    · have h1 := h.1
      omega

theorem framed_lastExitPos (out err : List Char) (rc : Nat) :
    lastExitPos (framedConsole out err rc) = some (98 + out.length + err.length) := by
  refine (lastExitPos_iff _ _).2 ⟨?_, ?_⟩
  · have hex : ∃ d ds, natDigits rc = d :: ds := by
      rcases hnd : natDigits rc with _ | ⟨d, ds⟩
      · exact absurd hnd (natDigits_ne_nil rc)
      · exact ⟨d, ds, rfl⟩
    obtain ⟨d, ds, hnd⟩ := hex
    have hd : isDigitCh d = true :=
      natDigits_all_digits rc d (by rw [hnd]; exact List.mem_cons_self d ds)
    have h2 : (exitMarkerChars ++ (natDigits rc ++ ['\n'])).drop 21 =
        natDigits rc ++ ['\n'] :=
      drop_eq_of_append _ _ _ exitMarker_length
    unfold exitHere
    rw [framed_drop_98, h2, hnd, List.cons_append, Bool.and_eq_true]
    exact ⟨(chPre_iff _ _).2 ⟨_, rfl⟩, hd⟩
  · intro q hq
    unfold exitHere at hq
    rw [Bool.and_eq_true] at hq
    rcases framed_occ _ out err rc (by decide) q hq.1 with h | h | h | h | h | h | h
    · have h1 := h.1
      omega
    · have h2 := h.2.1
      omega
    · have h2 := h.2.1
      omega
    · have h2 := h.2.1
      omega
    · have h2 := h.2.1
      omega
    · have h2 := h.2.1
      omega
    · by_contra hgt
      push_neg at hgt
      have h1 := h.1
      have hfalse := no_occ_exit_tail exitMarkerChars (by decide) (by decide)
        exitMarker_no_digit (natDigits rc) (natDigits_ne_nil rc)
        (natDigits_all_digits rc) (q - (98 + out.length + err.length))
        (by rw [exitMarker_length]; omega)
      rw [h.2] at hfalse
      exact Bool.noConfusion hfalse

theorem framed_exitVal (out err : List Char) (rc : Nat) :
    exitValAt (framedConsole out err rc) (98 + out.length + err.length) = rc := by
  unfold exitValAt
  rw [show 98 + out.length + err.length + 21 = 119 + out.length + err.length from by omega]
  rw [framed_drop_119]
  rw [takeWhile_digits_append _ (natDigits_all_digits rc)]
  exact digitsVal_natDigits rc

theorem framed_extract_stdout (out err : List Char) (rc : Nat)
    (hSBout : hasInfix stdoutBeginChars out = false)
    (hSBerr : hasInfix stdoutBeginChars err = false)
    (hSEout : hasInfix stdoutEndChars out = false) :
    extractBetweenMarkers (framedConsole out err rc) stdoutBeginChars stdoutEndChars
      = some ('\n' :: (out ++ ['\n'])) := by
  have h1 := framed_sb_last out err rc hSBout hSBerr
  have h2 : goIndexOf ((framedConsole out err rc).drop (0 + stdoutBeginChars.length))
      stdoutEndChars = some (out.length + 2) := by
    rw [show 0 + stdoutBeginChars.length = 24 from rfl]
    exact framed_se_first out err rc hSEout
  rw [extractBetweenMarkers_eq _ _ _ 0 (out.length + 2) h1 h2]
  rw [show 0 + stdoutBeginChars.length = 24 from rfl, framed_drop_24]
  rw [take_seg]

theorem framed_extract_stderr (out err : List Char) (rc : Nat)
    (hEBerr : hasInfix stderrBeginChars err = false)
    (hEEerr : hasInfix stderrEndChars err = false) :
    extractBetweenMarkers (framedConsole out err rc) stderrBeginChars stderrEndChars
      = some ('\n' :: (err ++ ['\n'])) := by
  have h1 := framed_eb_last out err rc hEBerr
  have h2 : goIndexOf ((framedConsole out err rc).drop
      (49 + out.length + stderrBeginChars.length)) stderrEndChars
      = some (err.length + 2) := by
    rw [show 49 + out.length + stderrBeginChars.length = 73 + out.length from by
      rw [eb_len]; omega]
    exact framed_ee_first out err rc hEEerr
  rw [extractBetweenMarkers_eq _ _ _ (49 + out.length) (err.length + 2) h1 h2]
  rw [show 49 + out.length + stderrBeginChars.length = 73 + out.length from by
    rw [eb_len]; omega]
  rw [framed_drop_73, take_seg]

/-- The framed console stream for a command whose entire stdout is the
literal begin marker, with empty stderr and exit status 0, spelled out as
a string literal. -/
def exC2 : List Char :=
  ("__VIBEBOX_STDOUT_BEGIN__\n__VIBEBOX_STDOUT_BEGIN__\n__VIBEBOX_STDOUT_END__\n" ++
   "__VIBEBOX_STDERR_BEGIN__\n\n__VIBEBOX_STDERR_END__\n__VIBEBOX_EXIT_CODE__0\n").data

set_option maxRecDepth 40000 in
/-- C2 (corrected). The structured parser does NOT in general recover a
command's stdout and stderr exactly when they contain the literal marker
strings: a stdout equal to the begin marker itself shifts `LastIndex` of
`__VIBEBOX_STDOUT_BEGIN__` to the copy inside the output, and the parser
recovers the empty string instead of the command's stdout. -/
theorem structured_markers_not_recovered :
    parseStructuredExecOutput (framedConsole stdoutBeginChars [] 0)
      = some ([], ['\n'], 0) ∧ ([] : List Char) ≠ stdoutBeginChars := by
  have hnd0 : natDigits 0 = ['0'] := by
    unfold natDigits
    rfl
  have hfc : framedConsole stdoutBeginChars [] 0 = exC2 := by
    rw [framedConsole, hnd0]
    rfl
  refine ⟨?_, by decide⟩
  rw [hfc]
  have hexit : parseExitMarker exC2 = some 0 := by
    have h := parseExitMarker_eq_lastPos exC2 122 (by decide) (by decide)
    rw [(by decide : exitValAt exC2 122 = 0)] at h
    exact h
  have hso : extractBetweenMarkers exC2 stdoutBeginChars stdoutEndChars
      = some ['\n'] := by decide
  have hse : extractBetweenMarkers exC2 stderrBeginChars stderrEndChars
      = some ['\n', '\n'] := by decide
  unfold parseStructuredExecOutput
  simp only [hexit, hso, hse]
  simp [trimPrefixNl]

/-- C2 (amended positive part). When the command's stdout contains neither
the stdout begin nor the stdout end marker, its stderr contains neither the
stdout begin, stderr begin nor stderr end marker, and the exit status fits
in an int64, the structured parser recovers the captured streams — each
with the single trailing newline the framing `printf '\n...'` adds (so even
then recovery is not exact: the streams gain one final newline; the exit
marker itself occurring in stdout or stderr is harmless). -/
theorem structured_output_framed (out err : List Char) (rc : Nat)
    (hSBout : hasInfix stdoutBeginChars out = false)
    (hSEout : hasInfix stdoutEndChars out = false)
    (hSBerr : hasInfix stdoutBeginChars err = false)
    (hEBerr : hasInfix stderrBeginChars err = false)
    (hEEerr : hasInfix stderrEndChars err = false)
    (hrc : rc ≤ maxGoInt) :
    parseStructuredExecOutput (framedConsole out err rc)
      = some (out ++ ['\n'], err ++ ['\n'], rc) := by
  have hexit : parseExitMarker (framedConsole out err rc) = some rc := by
    have h := parseExitMarker_eq_lastPos (framedConsole out err rc)
      (98 + out.length + err.length) (framed_lastExitPos out err rc)
      (by rw [framed_exitVal]; exact hrc)
    rw [framed_exitVal] at h
    exact h
  have hso := framed_extract_stdout out err rc hSBout hSBerr hSEout
  have hse := framed_extract_stderr out err rc hEBerr hEEerr
  unfold parseStructuredExecOutput
  simp only [hexit, hso, hse]
  simp [trimPrefixNl]

set_option maxRecDepth 40000 in
/-- Witness for C2 (amended part): a stdout that contains the literal exit
marker and a non-empty stderr are recovered (with the framing's trailing
newline) and the command's exit status 3 wins over the marker in stdout. -/
theorem structured_output_framed_witness :
    parseStructuredExecOutput
        (framedConsole ("__VIBEBOX_EXIT_CODE__7".data) ("oops".data) 3)
      = some ("__VIBEBOX_EXIT_CODE__7".data ++ ['\n'], "oops".data ++ ['\n'], 3) :=
  structured_output_framed ("__VIBEBOX_EXIT_CODE__7".data) ("oops".data) 3
    (by decide) (by decide) (by decide) (by decide) (by decide) (by decide)

/-! ## Guest cwd resolution (internal/backend/macos `resolveVMGuestCwd`,
`projectRootGuestFromSpec`, `workspaceGuestFromSpec` and the `Exec`
prelude)

Paths are modelled as `List Char` with the Unix rules of Go's
`path/filepath`: `splitSlash`/`joinSlash` split and join on `'/'`,
`cleanStep`/`cleanElems`/`renderPath`/`goClean` implement
`filepath.Clean`'s lexical algorithm element-wise (drop empty and `.`
elements; `..` pops the previous element unless the stack is empty or ends
in `..`, is dropped at the root of an absolute path, and is kept leading in
a relative one), `goJoin2` is the two-argument `filepath.Join`, and `goRel`
is `filepath.Rel` (clean both, equal → `.`, absoluteness must agree, drop
the common element prefix, error if the base remainder starts with `..`,
else one `..` per remaining base element followed by the target
remainder). `filepath.ToSlash` is the identity on Unix. -/

def splitSlash : List Char → List (List Char)
  | [] => [[]]
  | c :: rest =>
    if c = '/' then [] :: splitSlash rest
    else
      match splitSlash rest with
      | [] => [[c]]
      | p :: ps => (c :: p) :: ps

def joinSlash : List (List Char) → List Char
  | [] => []
  | [p] => p
  | p :: q :: ps => p ++ '/' :: joinSlash (q :: ps)

/-- `filepath.IsAbs` on Unix: `strings.HasPrefix(path, "/")`. -/
def isAbsPath (p : List Char) : Bool := p.head? = some '/'

/-- One element of `filepath.Clean`'s scan: skip empty and `.`, let `..`
pop the last element unless none is poppable (then drop it at the root of
an absolute path, keep it in a relative one), push anything else. -/
def cleanStep (abs : Bool) (stack : List (List Char)) (e : List Char) :
    List (List Char) :=
  if e = [] ∨ e = ['.'] then stack
  else if e = ['.', '.'] then
    if stack ≠ [] ∧ stack.getLast? ≠ some ['.', '.'] then stack.dropLast
    else if abs then stack
    else stack ++ [['.', '.']]
  else stack ++ [e]

def cleanElems (abs : Bool) (parts : List (List Char)) : List (List Char) :=
  parts.foldl (cleanStep abs) []

def renderPath (abs : Bool) (elems : List (List Char)) : List Char :=
  if abs then '/' :: joinSlash elems
  else if elems = [] then ['.'] else joinSlash elems

/-- `filepath.Clean` on Unix. -/
def goClean (p : List Char) : List Char :=
  if p = [] then ['.']
  else renderPath (isAbsPath p) (cleanElems (isAbsPath p) (splitSlash p))

/-- Two-argument `filepath.Join`: drop empty arguments, join the rest with
a separator, and clean. -/
def goJoin2 (a b : List Char) : List Char :=
  if a = [] ∧ b = [] then []
  else if a = [] then goClean b
  else if b = [] then goClean a
  else goClean (a ++ '/' :: b)

/-- The separator-delimited elements of a cleaned path, as walked by
`filepath.Rel`'s index loop. -/
def pathElems (p : List Char) : List (List Char) :=
  if p = [] then []
  else if p = ['/'] then []
  else
    match p with
    | '/' :: rest => splitSlash rest
    | _ => splitSlash p

def commonPrefixLen : List (List Char) → List (List Char) → Nat
  | a :: as, b :: bs => if a = b then commonPrefixLen as bs + 1 else 0
  | _, _ => 0

def startsWithDotDotSlash (p : List Char) : Bool := p.take 3 = ['.', '.', '/']

/-- `filepath.Rel` on Unix. -/
def goRel (basepath targpath : List Char) : Except (List Char) (List Char) :=
  let base := goClean basepath
  let targ := goClean targpath
  if targ = base then .ok ['.']
  else
    let base2 := if base = ['.'] then [] else base
    if isAbsPath base2 ≠ isAbsPath targ then
      .error ("Rel: cannot make it relative".data)
    else
      let bs := pathElems base2
      let ts := pathElems targ
      let k := commonPrefixLen bs ts
      let brest := bs.drop k
      let trest := ts.drop k
      if brest.head? = some ['.', '.'] then
        .error ("Rel: cannot make it relative".data)
      else if brest ≠ [] then
        .ok (joinSlash (brest.map (fun _ => ['.', '.']) ++ trest))
      else .ok (joinSlash trest)

/-- `resolveVMGuestCwd(projectRoot, requested, workspaceGuest)`. -/
def resolveVMGuestCwd (projectRoot requested workspaceGuest : List Char) :
    Except (List Char) (List Char) :=
  if requested = [] then .ok workspaceGuest
  else if isAbsPath requested then .ok requested
  else
    let hostPath := goClean (goJoin2 projectRoot requested)
    match goRel projectRoot hostPath with
    | .error e => .error e
    | .ok rel =>
      if rel = ['.', '.'] ∨ startsWithDotDotSlash rel = true then
        .error ("cwd escapes project root ".data ++ projectRoot)
      else .ok (goJoin2 workspaceGuest rel)

/-- A declared mount (host path, guest path), both as character lists. -/
structure MountP where
  host : List Char
  guest : List Char
deriving DecidableEq

/-- `projectRootGuestFromSpec`: the guest path of the first declared mount
whose (absolutized, cleaned) host path equals the cleaned project root. -/
def projectRootGuestFromSpec (projectRoot : List Char) (mounts : List MountP) :
    Option (List Char) :=
  mounts.findSome? (fun m =>
    if m.guest = [] then none
    else if m.host = [] then none
    else
      let hostPath := if isAbsPath m.host then m.host else goJoin2 projectRoot m.host
      if goClean hostPath = goClean projectRoot then some m.guest else none)

/-- `workspaceGuestFromSpec`: project-root mount's guest path, else the
first mount with a guest path, else `/workspace`. -/
def workspaceGuestFromSpec (projectRoot : List Char) (mounts : List MountP) :
    List Char :=
  match projectRootGuestFromSpec projectRoot mounts with
  | some g => g
  | none =>
    match mounts.findSome? (fun m => if m.guest ≠ [] then some m.guest else none) with
    | some g => g
    | none => "/workspace".data

/-- The `Backend.Exec` prelude: for a relative non-empty cwd a project-root
mount is required (else a path error before any VM work), and the chosen
workspace guest is that mount's guest path; then `resolveVMGuestCwd`. -/
def execGuestCwd (projectRoot : List Char) (mounts : List MountP)
    (cwd : List Char) : Except (List Char) (List Char) :=
  if cwd ≠ [] ∧ isAbsPath cwd = false then
    match projectRootGuestFromSpec projectRoot mounts with
    | none =>
      .error ("relative cwd requires a mount for project root ".data ++ projectRoot)
    | some g => resolveVMGuestCwd projectRoot cwd g
  else resolveVMGuestCwd projectRoot cwd (workspaceGuestFromSpec projectRoot mounts)

theorem splitSlash_cons (c : Char) (rest : List Char) :
    splitSlash (c :: rest) =
      if c = '/' then [] :: splitSlash rest
      else
        match splitSlash rest with
        | [] => [[c]]
        | p :: ps => (c :: p) :: ps := rfl

theorem splitSlash_ne_nil : ∀ p, splitSlash p ≠ [] := by
  intro p
  cases p with
  | nil => exact List.cons_ne_nil _ _
  | cons c rest =>
    rw [splitSlash_cons]
    by_cases hc : c = '/'
    · rw [if_pos hc]
      exact List.cons_ne_nil _ _
    · rw [if_neg hc]
      cases hs : splitSlash rest with
      | nil => exact List.cons_ne_nil _ _
      | cons p ps => exact List.cons_ne_nil _ _

theorem splitSlash_append (a b : List Char) :
    splitSlash (a ++ '/' :: b) = splitSlash a ++ splitSlash b := by
  induction a with
  | nil =>
    show splitSlash ('/' :: b) = [[]] ++ splitSlash b
    rw [splitSlash_cons, if_pos rfl]
    rfl
  | cons c a ih =>
    rw [List.cons_append]
    show splitSlash (c :: (a ++ '/' :: b)) = splitSlash (c :: a) ++ splitSlash b
    rw [splitSlash_cons, splitSlash_cons]
    by_cases hc : c = '/'
    · rw [if_pos hc, if_pos hc, ih]
      rfl
    · rw [if_neg hc, if_neg hc, ih]
      rcases hs : splitSlash a with _ | ⟨p, ps⟩
      · exact absurd hs (splitSlash_ne_nil a)
      · rfl

theorem splitSlash_no_slash : ∀ p, ∀ e ∈ splitSlash p, '/' ∉ e := by
  intro p
  induction p with
  | nil =>
    intro e he
    rw [show splitSlash [] = [[]] from rfl, List.mem_singleton] at he
    rw [he]
    exact List.not_mem_nil '/'
  | cons c rest ih =>
    intro e he
    rw [splitSlash_cons] at he
    by_cases hc : c = '/'
    · rw [if_pos hc, List.mem_cons] at he
      rcases he with rfl | he'
      · exact List.not_mem_nil '/'
      · exact ih e he'
    · rw [if_neg hc] at he
      rcases hs : splitSlash rest with _ | ⟨p0, ps⟩
      · exact absurd hs (splitSlash_ne_nil rest)
      · rw [hs, List.mem_cons] at he
        rcases he with rfl | he'
        · intro hm
          rw [List.mem_cons] at hm
          rcases hm with h1 | h2
          · exact hc h1.symm
          · exact ih p0 (hs ▸ List.mem_cons_self p0 ps) h2
        · exact ih e (hs ▸ List.mem_cons_of_mem p0 he')

theorem splitSlash_eq_singleton (p : List Char) (hp : '/' ∉ p) :
    splitSlash p = [p] := by
  induction p with
  | nil => rfl
  | cons c cs ihc =>
    have hc : c ≠ '/' := fun h => hp (h ▸ List.mem_cons_self c cs)
    have hcs : '/' ∉ cs := fun h => hp (List.mem_cons_of_mem c h)
    rw [splitSlash_cons, if_neg hc, ihc hcs]

theorem splitSlash_joinSlash : ∀ E : List (List Char), E ≠ [] →
    (∀ e ∈ E, '/' ∉ e) → splitSlash (joinSlash E) = E := by
  intro E
  induction E with
  | nil => intro h; exact absurd rfl h
  | cons p ps ih =>
    intro _ hfree
    cases ps with
    | nil =>
      exact splitSlash_eq_singleton p (hfree p (List.mem_cons_self p []))
    | cons q qs =>
      show splitSlash (p ++ '/' :: joinSlash (q :: qs)) = p :: q :: qs
      rw [splitSlash_append]
      have hj : splitSlash (joinSlash (q :: qs)) = q :: qs :=
        ih (List.cons_ne_nil q qs) (fun e he => hfree e (List.mem_cons_of_mem p he))
      rw [hj, splitSlash_eq_singleton p (hfree p (List.mem_cons_self p _))]
      rfl

theorem cleanStep_skip (abs : Bool) (stack : List (List Char)) {e : List Char}
    (h : e = [] ∨ e = ['.']) : cleanStep abs stack e = stack := by
  unfold cleanStep
  rw [if_pos h]

theorem cleanStep_pop (abs : Bool) (stack : List (List Char))
    (h3 : stack ≠ [] ∧ stack.getLast? ≠ some ['.', '.']) :
    cleanStep abs stack ['.', '.'] = stack.dropLast := by
  unfold cleanStep
  rw [if_neg (by decide), if_pos rfl, if_pos h3]

theorem cleanStep_ddroot (stack : List (List Char))
    (h3 : ¬(stack ≠ [] ∧ stack.getLast? ≠ some ['.', '.'])) :
    cleanStep true stack ['.', '.'] = stack := by
  unfold cleanStep
  rw [if_neg (by decide), if_pos rfl, if_neg h3, if_pos rfl]

theorem cleanStep_ddpush (stack : List (List Char))
    (h3 : ¬(stack ≠ [] ∧ stack.getLast? ≠ some ['.', '.'])) :
    cleanStep false stack ['.', '.'] = stack ++ [['.', '.']] := by
  unfold cleanStep
  rw [if_neg (by decide), if_pos rfl, if_neg h3, if_neg (by decide)]

theorem cleanStep_push (abs : Bool) (stack : List (List Char)) {e : List Char}
    (h1 : ¬(e = [] ∨ e = ['.'])) (h2 : e ≠ ['.', '.']) :
    cleanStep abs stack e = stack ++ [e] := by
  unfold cleanStep
  rw [if_neg h1, if_neg h2]

theorem dropLast_append_ne {α : Type} (R S : List α) (h : S ≠ []) :
    (R ++ S).dropLast = R ++ S.dropLast := by
  induction R with
  | nil => rfl
  | cons a r ih =>
    rcases hr : r ++ S with _ | ⟨b, t⟩
    · have h2 := List.append_eq_nil.1 hr
      exact absurd h2.2 h
    · rw [List.cons_append, hr, List.dropLast_cons₂, ← hr, ih]
      rfl

theorem mem_foldl_cleanStep (abs : Bool) :
    ∀ (parts : List (List Char)) (stack : List (List Char)) (e : List Char),
      e ∈ parts.foldl (cleanStep abs) stack →
      e ∈ stack ∨ e ∈ parts ∨ e = ['.', '.'] := by
  intro parts
  induction parts with
  | nil =>
    intro stack e he
    exact Or.inl he
  | cons p ps ih =>
    intro stack e he
    rw [List.foldl_cons] at he
    rcases ih (cleanStep abs stack p) e he with hm | hm | hm
    · by_cases h1 : p = [] ∨ p = ['.']
      · rw [cleanStep_skip abs stack h1] at hm
        exact Or.inl hm
      by_cases h2 : p = ['.', '.']
      · subst h2
        by_cases h3 : stack ≠ [] ∧ stack.getLast? ≠ some ['.', '.']
        · rw [cleanStep_pop abs stack h3] at hm
          exact Or.inl (List.dropLast_subset stack hm)
        · cases abs with
          | false =>
            rw [cleanStep_ddpush stack h3] at hm
            rcases List.mem_append.1 hm with hm' | hm'
            · exact Or.inl hm'
            · exact Or.inr (Or.inr (List.mem_singleton.1 hm'))
          | true =>
            rw [cleanStep_ddroot stack h3] at hm
            exact Or.inl hm
      · rw [cleanStep_push abs stack h1 h2] at hm
        rcases List.mem_append.1 hm with hm' | hm'
        · exact Or.inl hm'
        · exact Or.inr (Or.inl (List.mem_singleton.1 hm' ▸ List.mem_cons_self p ps))
    · exact Or.inr (Or.inl (List.mem_cons_of_mem p hm))
    · exact Or.inr (Or.inr hm)

theorem not_dd_foldl_abs :
    ∀ (parts : List (List Char)) (stack : List (List Char)),
      ['.', '.'] ∉ stack → ['.', '.'] ∉ parts.foldl (cleanStep true) stack := by
  intro parts
  induction parts with
  | nil => intro stack h; exact h
  | cons p ps ih =>
    intro stack h
    rw [List.foldl_cons]
    refine ih (cleanStep true stack p) ?_
    by_cases h1 : p = [] ∨ p = ['.']
    · rw [cleanStep_skip true stack h1]
      exact h
    by_cases h2 : p = ['.', '.']
    · subst h2
      by_cases h3 : stack ≠ [] ∧ stack.getLast? ≠ some ['.', '.']
      · rw [cleanStep_pop true stack h3]
        exact fun hm => h (List.dropLast_subset stack hm)
      · rw [cleanStep_ddroot stack h3]
        exact h
    · rw [cleanStep_push true stack h1 h2]
      intro hm
      rcases List.mem_append.1 hm with hm' | hm'
      · exact h hm'
      · exact h2 (List.mem_singleton.1 hm').symm

theorem ne_special_foldl (abs : Bool) :
    ∀ (parts : List (List Char)) (stack : List (List Char)),
      (∀ x ∈ stack, x ≠ [] ∧ x ≠ ['.']) →
      ∀ x ∈ parts.foldl (cleanStep abs) stack, x ≠ [] ∧ x ≠ ['.'] := by
  intro parts
  induction parts with
  | nil => intro stack h; exact h
  | cons p ps ih =>
    intro stack h
    rw [List.foldl_cons]
    refine ih (cleanStep abs stack p) ?_
    by_cases h1 : p = [] ∨ p = ['.']
    · rw [cleanStep_skip abs stack h1]
      exact h
    by_cases h2 : p = ['.', '.']
    · subst h2
      by_cases h3 : stack ≠ [] ∧ stack.getLast? ≠ some ['.', '.']
      · rw [cleanStep_pop abs stack h3]
        exact fun x hx => h x (List.dropLast_subset stack hx)
      · cases abs with
        | false =>
          rw [cleanStep_ddpush stack h3]
          intro x hx
          rcases List.mem_append.1 hx with hx' | hx'
          · exact h x hx'
          · rw [List.mem_singleton.1 hx']
            exact ⟨by decide, by decide⟩
        | true =>
          rw [cleanStep_ddroot stack h3]
          exact h
    · rw [cleanStep_push abs stack h1 h2]
      intro x hx
      rcases List.mem_append.1 hx with hx' | hx'
      · exact h x hx'
      · rw [List.mem_singleton.1 hx']
        push_neg at h1
        exact h1

theorem foldl_push_only (abs : Bool) :
    ∀ (E : List (List Char)) (stack : List (List Char)),
      (∀ e ∈ E, ¬(e = [] ∨ e = ['.']) ∧ e ≠ ['.', '.']) →
      E.foldl (cleanStep abs) stack = stack ++ E := by
  intro E
  induction E with
  | nil => intro stack _; rw [List.foldl_nil, List.append_nil]
  | cons p ps ih =>
    intro stack h
    rw [List.foldl_cons,
      cleanStep_push abs stack (h p (List.mem_cons_self p ps)).1
        (h p (List.mem_cons_self p ps)).2,
      ih (stack ++ [p]) (fun e he => h e (List.mem_cons_of_mem p he)),
      List.append_assoc]
    rfl

theorem dd_head_absorb :
    ∀ (l S : List (List Char)), S.head? = some ['.', '.'] →
      (l.foldl (cleanStep false) S).head? = some ['.', '.'] := by
  intro l
  induction l with
  | nil => intro S h; exact h
  | cons e l' ih =>
    intro S h
    rw [List.foldl_cons]
    refine ih _ ?_
    by_cases h1 : e = [] ∨ e = ['.']
    · rw [cleanStep_skip false S h1]
      exact h
    by_cases h2 : e = ['.', '.']
    · subst h2
      by_cases h3 : S ≠ [] ∧ S.getLast? ≠ some ['.', '.']
      · rw [cleanStep_pop false S h3]
        rcases S with _ | ⟨a, t⟩
        · exact Option.noConfusion h
        · rw [List.head?_cons] at h
          have ha : a = ['.', '.'] := Option.some.inj h
          rcases t with _ | ⟨b, t'⟩
          · exact absurd (by rw [List.getLast?_singleton, ha]) h3.2
          · rw [List.dropLast_cons₂, List.head?_cons, ha]
      · rw [cleanStep_ddpush S h3]
        rcases S with _ | ⟨a, t⟩
        · rfl
        · rw [List.cons_append, List.head?_cons]
          rw [List.head?_cons] at h
          exact h
    · rw [cleanStep_push false S h1 h2]
      rcases S with _ | ⟨a, t⟩
      · exact Option.noConfusion h
      · rw [List.cons_append, List.head?_cons]
        rw [List.head?_cons] at h
        exact h

theorem dd_leading :
    ∀ (l S : List (List Char)),
      (['.', '.'] ∈ S → S.head? = some ['.', '.']) →
      ['.', '.'] ∈ l.foldl (cleanStep false) S →
      (l.foldl (cleanStep false) S).head? = some ['.', '.'] := by
  intro l
  induction l with
  | nil => intro S h hm; exact h hm
  | cons e l' ih =>
    intro S h hm
    rw [List.foldl_cons] at hm ⊢
    refine ih _ ?_ hm
    intro hmem
    by_cases h1 : e = [] ∨ e = ['.']
    · rw [cleanStep_skip false S h1] at hmem ⊢
      exact h hmem
    by_cases h2 : e = ['.', '.']
    · subst h2
      by_cases h3 : S ≠ [] ∧ S.getLast? ≠ some ['.', '.']
      · rw [cleanStep_pop false S h3] at hmem ⊢
        have hS := h (List.dropLast_subset S hmem)
        rcases S with _ | ⟨a, t⟩
        · exact absurd hmem (List.not_mem_nil _)
        · rcases t with _ | ⟨b, t'⟩
          · exact absurd hmem (List.not_mem_nil _)
          · rw [List.dropLast_cons₂, List.head?_cons]
            rw [List.head?_cons] at hS
            exact hS
      · rw [cleanStep_ddpush S h3] at hmem ⊢
        push_neg at h3
        rcases S with _ | ⟨a, t⟩
        · rfl
        · have hg : (a :: t).getLast? = some ['.', '.'] := h3 (List.cons_ne_nil a t)
          have hddS : ['.', '.'] ∈ a :: t := List.mem_of_mem_getLast? hg
          have hh := h hddS
          rw [List.cons_append, List.head?_cons]
          rw [List.head?_cons] at hh
          exact hh
    · rw [cleanStep_push false S h1 h2] at hmem ⊢
      have hddS : ['.', '.'] ∈ S := by
        rcases List.mem_append.1 hmem with hx | hx
        · exact hx
        · exact absurd (List.mem_singleton.1 hx).symm h2
      have hh := h hddS
      rcases S with _ | ⟨a, t⟩
      · exact absurd hddS (List.not_mem_nil _)
      · rw [List.cons_append, List.head?_cons]
        rw [List.head?_cons] at hh
        exact hh

theorem abs_rel_correspondence :
    ∀ (l R S : List (List Char)), ['.', '.'] ∉ R → ['.', '.'] ∉ S →
      (l.foldl (cleanStep false) S).head? ≠ some ['.', '.'] →
      l.foldl (cleanStep true) (R ++ S) = R ++ l.foldl (cleanStep false) S := by
  intro l
  induction l with
  | nil => intro R S _ _ _; rfl
  | cons e l' ih =>
    intro R S hR hS hfin
    rw [List.foldl_cons] at hfin ⊢
    rw [List.foldl_cons]
    by_cases h1 : e = [] ∨ e = ['.']
    · rw [cleanStep_skip true (R ++ S) h1, cleanStep_skip false S h1]
      rw [cleanStep_skip false S h1] at hfin
      exact ih R S hR hS hfin
    by_cases h2 : e = ['.', '.']
    · subst h2
      rcases hScases : S with _ | ⟨a, t⟩
      · -- relative side pushes a leading "..", which persists to the final
        -- head, contradicting hfin
        exfalso
        rw [hScases] at hfin
        rw [cleanStep_ddpush [] (by simp)] at hfin
        exact hfin (dd_head_absorb l' _ rfl)
      · have hlast : S.getLast? ≠ some ['.', '.'] := by
          intro hg
          exact hS (List.mem_of_mem_getLast? hg)
        have h3 : S ≠ [] ∧ S.getLast? ≠ some ['.', '.'] := by
          rw [hScases]
          exact ⟨List.cons_ne_nil a t, hScases ▸ hlast⟩
        have h3' : R ++ S ≠ [] ∧ (R ++ S).getLast? ≠ some ['.', '.'] := by
          constructor
          · rw [hScases]
            simp
          · rw [List.getLast?_append_of_ne_nil R (hScases ▸ List.cons_ne_nil a t)]
            exact hlast
        rw [← hScases] at *
        rw [cleanStep_pop true (R ++ S) h3', cleanStep_pop false S h3]
        rw [cleanStep_pop false S h3] at hfin
        rw [dropLast_append_ne R S h3.1]
        exact ih R S.dropLast hR
          (fun hm => hS (List.dropLast_subset S hm)) hfin
    · rw [cleanStep_push true (R ++ S) h1 h2, cleanStep_push false S h1 h2]
      rw [cleanStep_push false S h1 h2] at hfin
      rw [List.append_assoc]
      refine ih R (S ++ [e]) hR ?_ hfin
      intro hm
      rcases List.mem_append.1 hm with hx | hx
      · exact hS hx
      · exact h2 (List.mem_singleton.1 hx).symm

theorem isAbsPath_slash (t : List Char) : isAbsPath ('/' :: t) = true := by
  simp [isAbsPath]

theorem isAbsPath_eq_true {p : List Char} (h : isAbsPath p = true) :
    ∃ t, p = '/' :: t := by
  unfold isAbsPath at h
  rw [decide_eq_true_eq] at h
  rcases p with _ | ⟨c, t⟩
  · rw [List.head?_nil] at h
    exact Option.noConfusion h
  · rw [List.head?_cons] at h
    exact ⟨t, by rw [Option.some.inj h]⟩

theorem renderPath_true (E : List (List Char)) :
    renderPath true E = '/' :: joinSlash E := by
  unfold renderPath
  rw [if_pos rfl]

theorem renderPath_false (E : List (List Char)) (h : E ≠ []) :
    renderPath false E = joinSlash E := by
  unfold renderPath
  rw [if_neg (by simp), if_neg h]

theorem joinSlash_ne_nil (E : List (List Char)) (h1 : E ≠ []) (h2 : [] ∉ E) :
    joinSlash E ≠ [] := by
  rcases E with _ | ⟨p, ps⟩
  · exact absurd rfl h1
  rcases ps with _ | ⟨q, qs⟩
  · intro hp
    have hp' : p = [] := hp
    subst hp'
    exact h2 (List.mem_cons_self [] [])
  · intro hp
    have h3 := List.append_eq_nil.1 hp
    exact List.cons_ne_nil _ _ h3.2

theorem pathElems_render (E : List (List Char)) (hfree : ∀ e ∈ E, '/' ∉ e)
    (hne : [] ∉ E) : pathElems (renderPath true E) = E := by
  rcases E with _ | ⟨p, ps⟩
  · rfl
  · rw [renderPath_true]
    unfold pathElems
    have hjn : joinSlash (p :: ps) ≠ [] :=
      joinSlash_ne_nil _ (List.cons_ne_nil _ _) hne
    rw [if_neg (show ('/' :: joinSlash (p :: ps) : List Char) ≠ [] from
      List.cons_ne_nil _ _)]
    rw [if_neg (show ('/' :: joinSlash (p :: ps) : List Char) ≠ ['/'] from by
      intro h
      injection h with h1 h2
      exact hjn h2)]
    show splitSlash (joinSlash (p :: ps)) = p :: ps
    exact splitSlash_joinSlash _ (List.cons_ne_nil _ _) hfree

theorem goClean_render_abs (E : List (List Char))
    (hfree : ∀ e ∈ E, '/' ∉ e)
    (hspec : ∀ e ∈ E, e ≠ [] ∧ e ≠ ['.'] ∧ e ≠ ['.', '.']) :
    goClean (renderPath true E) = renderPath true E := by
  rcases E with _ | ⟨p, ps⟩
  · rfl
  · rw [renderPath_true]
    unfold goClean
    rw [if_neg (show ('/' :: joinSlash (p :: ps) : List Char) ≠ [] from
      List.cons_ne_nil _ _)]
    rw [isAbsPath_slash]
    rw [show splitSlash ('/' :: joinSlash (p :: ps)) = [] :: (p :: ps) from by
      rw [splitSlash_cons, if_pos rfl,
        splitSlash_joinSlash _ (List.cons_ne_nil _ _) hfree]]
    rw [show cleanElems true ([] :: p :: ps) = p :: ps from by
      unfold cleanElems
      rw [List.foldl_cons, cleanStep_skip true [] (Or.inl rfl)]
      exact foldl_push_only true (p :: ps) [] (fun e he =>
        ⟨fun hor => by
          rcases hor with h | h
          · exact (hspec e he).1 h
          · exact (hspec e he).2.1 h,
         (hspec e he).2.2⟩)]
    rw [renderPath_true]

theorem cleanElems_no_slash (abs : Bool) (p : List Char) :
    ∀ e ∈ cleanElems abs (splitSlash p), '/' ∉ e := by
  intro e he
  rcases mem_foldl_cleanStep abs (splitSlash p) [] e he with h | h | h
  · exact absurd h (List.not_mem_nil e)
  · exact splitSlash_no_slash p e h
  · rw [h]
    decide

theorem cleanElems_ne_special (abs : Bool) (p : List Char) :
    ∀ e ∈ cleanElems abs (splitSlash p), e ≠ [] ∧ e ≠ ['.'] :=
  ne_special_foldl abs (splitSlash p) [] (fun x hx => absurd hx (List.not_mem_nil x))

theorem cleanElems_abs_no_dd (p : List Char) :
    ['.', '.'] ∉ cleanElems true (splitSlash p) :=
  not_dd_foldl_abs (splitSlash p) [] (List.not_mem_nil _)

theorem commonPrefixLen_self_append (R Q : List (List Char)) :
    commonPrefixLen R (R ++ Q) = R.length := by
  induction R with
  | nil => rfl
  | cons a as ih =>
    show commonPrefixLen (a :: as) (a :: (as ++ Q)) = (a :: as).length
    rw [show commonPrefixLen (a :: as) (a :: (as ++ Q)) =
      if a = a then commonPrefixLen as (as ++ Q) + 1 else 0 from rfl]
    rw [if_pos rfl, ih, List.length_cons]

theorem swdds_eq_true_iff (p : List Char) :
    startsWithDotDotSlash p = true ↔ ∃ t, p = '.' :: '.' :: '/' :: t := by
  constructor
  · intro h
    unfold startsWithDotDotSlash at h
    rw [decide_eq_true_eq] at h
    refine ⟨p.drop 3, ?_⟩
    conv_lhs => rw [← List.take_append_drop 3 p]
    rw [h]
    rfl
  · rintro ⟨t, rfl⟩
    rfl

theorem swdds_false_of_no_slash (p : List Char) (h : '/' ∉ p) :
    startsWithDotDotSlash p = false := by
  cases hs : startsWithDotDotSlash p
  · rfl
  · exfalso
    obtain ⟨t, rfl⟩ := (swdds_eq_true_iff p).1 hs
    exact h (List.mem_cons_of_mem _ (List.mem_cons_of_mem _ (List.mem_cons_self _ _)))

theorem joinSlash_not_escape (Q : List (List Char)) (hq : Q ≠ [])
    (hhead : Q.head? ≠ some ['.', '.'])
    (hfree : ∀ e ∈ Q, '/' ∉ e) (hne : [] ∉ Q) :
    joinSlash Q ≠ ['.', '.'] ∧ startsWithDotDotSlash (joinSlash Q) = false := by
  rcases Q with _ | ⟨q0, qs⟩
  · exact absurd rfl hq
  have h0ne : q0 ≠ [] := by
    intro h
    apply hne
    rw [← h]
    exact List.mem_cons_self q0 qs
  have hdd : q0 ≠ ['.', '.'] := fun h => hhead (by rw [List.head?_cons, h])
  have hfree0 : '/' ∉ q0 := hfree q0 (List.mem_cons_self _ _)
  rcases qs with _ | ⟨q1, qs'⟩
  · exact ⟨hdd, swdds_false_of_no_slash q0 hfree0⟩
  · constructor
    · intro h
      have hm : '/' ∈ q0 ++ '/' :: joinSlash (q1 :: qs') :=
        List.mem_append.2 (Or.inr (List.mem_cons_self _ _))
      have h' : q0 ++ '/' :: joinSlash (q1 :: qs') = ['.', '.'] := h
      rw [h'] at hm
      exact absurd hm (by decide)
    · cases hs : startsWithDotDotSlash (joinSlash (q0 :: q1 :: qs'))
      · rfl
      exfalso
      obtain ⟨t, ht⟩ := (swdds_eq_true_iff _).1 hs
      have ht' : q0 ++ '/' :: joinSlash (q1 :: qs') = '.' :: '.' :: '/' :: t := ht
      rcases q0 with _ | ⟨c1, q0'⟩
      · exact h0ne rfl
      rcases q0' with _ | ⟨c2, q0''⟩
      · rw [List.cons_append, List.nil_append] at ht'
        injection ht' with e1 ht2
        injection ht2 with e2 _
        exact absurd e2 (by decide)
      rcases q0'' with _ | ⟨c3, q0'''⟩
      · rw [List.cons_append, List.cons_append, List.nil_append] at ht'
        injection ht' with e1 ht2
        injection ht2 with e2 ht3
        exact hdd (by rw [e1, e2])
      · rw [List.cons_append, List.cons_append, List.cons_append] at ht'
        injection ht' with e1 ht2
        injection ht2 with e2 ht3
        injection ht3 with e3 _
        apply hfree0
        rw [← e3]
        exact List.mem_cons_of_mem _ (List.mem_cons_of_mem _ (List.mem_cons_self _ _))

theorem goRel_def (basepath targpath : List Char) :
    goRel basepath targpath =
      if goClean targpath = goClean basepath then .ok ['.']
      else
        if isAbsPath (if goClean basepath = ['.'] then [] else goClean basepath)
            ≠ isAbsPath (goClean targpath) then
          .error ("Rel: cannot make it relative".data)
        else
          if (List.drop
                (commonPrefixLen
                  (pathElems (if goClean basepath = ['.'] then [] else goClean basepath))
                  (pathElems (goClean targpath)))
                (pathElems (if goClean basepath = ['.'] then [] else goClean basepath))).head?
              = some ['.', '.'] then
            .error ("Rel: cannot make it relative".data)
          else if (List.drop
                (commonPrefixLen
                  (pathElems (if goClean basepath = ['.'] then [] else goClean basepath))
                  (pathElems (goClean targpath)))
                (pathElems (if goClean basepath = ['.'] then [] else goClean basepath))) ≠ [] then
            .ok (joinSlash
              ((List.drop
                (commonPrefixLen
                  (pathElems (if goClean basepath = ['.'] then [] else goClean basepath))
                  (pathElems (goClean targpath)))
                (pathElems (if goClean basepath = ['.'] then [] else goClean basepath))).map
                  (fun _ => ['.', '.']) ++
               List.drop
                (commonPrefixLen
                  (pathElems (if goClean basepath = ['.'] then [] else goClean basepath))
                  (pathElems (goClean targpath)))
                (pathElems (goClean targpath))))
          else
            .ok (joinSlash
              (List.drop
                (commonPrefixLen
                  (pathElems (if goClean basepath = ['.'] then [] else goClean basepath))
                  (pathElems (goClean targpath)))
                (pathElems (goClean targpath)))) := rfl

theorem resolveVMGuestCwd_def (projectRoot requested workspaceGuest : List Char) :
    resolveVMGuestCwd projectRoot requested workspaceGuest =
      if requested = [] then .ok workspaceGuest
      else if isAbsPath requested then .ok requested
      else
        match goRel projectRoot (goClean (goJoin2 projectRoot requested)) with
        | .error e => .error e
        | .ok rel =>
          if rel = ['.', '.'] ∨ startsWithDotDotSlash rel = true then
            .error ("cwd escapes project root ".data ++ projectRoot)
          else .ok (goJoin2 workspaceGuest rel) := rfl

theorem root_render (root : List Char) (hroot : isAbsPath root = true)
    (hclean : goClean root = root) :
    renderPath true (cleanElems true (splitSlash root)) = root := by
  obtain ⟨rt, rfl⟩ := isAbsPath_eq_true hroot
  conv_rhs => rw [← hclean]
  unfold goClean
  rw [if_neg (List.cons_ne_nil _ _), isAbsPath_slash]

theorem hostPath_eq (root req : List Char) (hroot : isAbsPath root = true)
    (hreqne : req ≠ [])
    (hnoesc : (cleanElems false (splitSlash req)).head? ≠ some ['.', '.']) :
    goJoin2 root req =
      renderPath true
        (cleanElems true (splitSlash root) ++ cleanElems false (splitSlash req)) := by
  obtain ⟨rt, rfl⟩ := isAbsPath_eq_true hroot
  unfold goJoin2
  rw [if_neg (by intro h; exact hreqne h.2)]
  rw [if_neg (show ('/' :: rt : List Char) ≠ [] from List.cons_ne_nil _ _)]
  rw [if_neg hreqne]
  unfold goClean
  rw [if_neg (show ('/' :: rt : List Char) ++ '/' :: req ≠ [] from by simp)]
  have habs2 : isAbsPath (('/' :: rt : List Char) ++ '/' :: req) = true := by
    rw [List.cons_append]
    exact isAbsPath_slash _
  rw [habs2, splitSlash_append]
  unfold cleanElems
  rw [List.foldl_append]
  have hcorr := abs_rel_correspondence (splitSlash req)
    ((splitSlash ('/' :: rt)).foldl (cleanStep true) []) []
    (cleanElems_abs_no_dd ('/' :: rt)) (List.not_mem_nil _) hnoesc
  rw [List.append_nil] at hcorr
  rw [hcorr]

theorem rel_eq_core (root req : List Char) (R Q : List (List Char))
    (hRdef : cleanElems true (splitSlash root) = R)
    (hQdef : cleanElems false (splitSlash req) = Q)
    (hroot : isAbsPath root = true)
    (hclean : goClean root = root)
    (hreqne : req ≠ [])
    (hrelq : isAbsPath req = false)
    (hnoesc : Q.head? ≠ some ['.', '.']) :
    goRel root (goClean (goJoin2 root req)) = .ok (goClean req) ∧
      goClean req ≠ ['.', '.'] ∧ startsWithDotDotSlash (goClean req) = false := by
  have hRfree : ∀ e ∈ R, '/' ∉ e := hRdef ▸ cleanElems_no_slash true root
  have hQfree : ∀ e ∈ Q, '/' ∉ e := hQdef ▸ cleanElems_no_slash false req
  have hRspec : ∀ e ∈ R, e ≠ [] ∧ e ≠ ['.'] ∧ e ≠ ['.', '.'] := by
    intro e he
    refine ⟨(cleanElems_ne_special true root e (hRdef.symm ▸ he)).1,
      (cleanElems_ne_special true root e (hRdef.symm ▸ he)).2, fun h => ?_⟩
    exact (hRdef ▸ cleanElems_abs_no_dd root) (h ▸ he)
  have hQnodd : ['.', '.'] ∉ Q := by
    intro hm
    refine hnoesc ?_
    have hm' : ['.', '.'] ∈ cleanElems false (splitSlash req) := hQdef.symm ▸ hm
    have hlead := dd_leading (splitSlash req) []
      (fun h => absurd h (List.not_mem_nil _)) hm' 
    rw [show (splitSlash req).foldl (cleanStep false) [] =
      cleanElems false (splitSlash req) from rfl, hQdef] at hlead
    exact hlead
  have hQspec : ∀ e ∈ Q, e ≠ [] ∧ e ≠ ['.'] ∧ e ≠ ['.', '.'] := by
    intro e he
    refine ⟨(cleanElems_ne_special false req e (hQdef.symm ▸ he)).1,
      (cleanElems_ne_special false req e (hQdef.symm ▸ he)).2,
      fun h => hQnodd (h ▸ he)⟩
  have hRQfree : ∀ e ∈ R ++ Q, '/' ∉ e := by
    intro e he
    rcases List.mem_append.1 he with h | h
    · exact hRfree e h
    · exact hQfree e h
  have hRQspec : ∀ e ∈ R ++ Q, e ≠ [] ∧ e ≠ ['.'] ∧ e ≠ ['.', '.'] := by
    intro e he
    rcases List.mem_append.1 he with h | h
    · exact hRspec e h
    · exact hQspec e h
  have hhp : goJoin2 root req = renderPath true (R ++ Q) := by
    rw [hostPath_eq root req hroot hreqne (by rw [hQdef]; exact hnoesc), hRdef, hQdef]
  have hgc2 : goClean (goJoin2 root req) = renderPath true (R ++ Q) := by
    rw [hhp]
    exact goClean_render_abs (R ++ Q) hRQfree hRQspec
  have hrootR : renderPath true R = root := by
    rw [← hRdef]
    exact root_render root hroot hclean
  have hcleanQ : goClean req = renderPath false Q := by
    unfold goClean
    rw [if_neg hreqne, hrelq, hQdef]
  by_cases hQnil : Q = []
  · refine ⟨?_, ?_, ?_⟩
    · rw [hgc2, hQnil, List.append_nil, hrootR, goRel_def, hclean, if_pos rfl,
        hcleanQ, hQnil]
      rfl
    · rw [hcleanQ, hQnil]
      decide
    · rw [hcleanQ, hQnil]
      decide
  · have hPE_RQ : pathElems (renderPath true (R ++ Q)) = R ++ Q :=
      pathElems_render _ hRQfree (fun hm => (hRQspec [] hm).1 rfl)
    have hPE_R : pathElems root = R := by
      rw [← hrootR]
      exact pathElems_render R hRfree (fun hm => (hRspec [] hm).1 rfl)
    have htne : renderPath true (R ++ Q) ≠ root := by
      intro h
      have heq : R ++ Q = R := by
        rw [← hPE_RQ, h, hPE_R]
      have hlen := congrArg List.length heq
      rw [List.length_append] at hlen
      have : Q.length = 0 := by omega
      exact hQnil (List.length_eq_zero.1 this)
    have hrootdot : root ≠ ['.'] := by
      obtain ⟨rt, hre⟩ := isAbsPath_eq_true hroot
      rw [hre]
      intro hh
      injection hh with h1 _
      exact absurd h1 (by decide)
    have habs2 : isAbsPath (renderPath true (R ++ Q)) = true := by
      rw [renderPath_true]
      exact isAbsPath_slash _
    have hesc := joinSlash_not_escape Q hQnil hnoesc hQfree
      (fun hm => (hQspec [] hm).1 rfl)
    refine ⟨?_, ?_, ?_⟩
    · rw [hgc2, goRel_def, hclean, goClean_render_abs (R ++ Q) hRQfree hRQspec,
        if_neg htne, if_neg hrootdot, hroot, habs2,
        if_neg (show ¬((true : Bool) ≠ true) from fun h => h rfl),
        hPE_R, hPE_RQ, commonPrefixLen_self_append, List.drop_length, List.drop_left,
        if_neg (show ¬(([] : List (List Char)).head? = some ['.', '.']) from by simp),
        if_neg (show ¬(([] : List (List Char)) ≠ []) from fun h => h rfl),
        hcleanQ, renderPath_false Q hQnil]
    · rw [hcleanQ, renderPath_false Q hQnil]
      exact hesc.1
    · rw [hcleanQ, renderPath_false Q hQnil]
      exact hesc.2

/-- C6 (corrected). The guest cwd for a relative request is NOT in general
the project-root mount's guest path joined with the cleaned relative cwd:
for project root `/u/b`, a mount of host `/u/b` at guest `/workspace`, and
cwd `../b`, the code resolves the cwd against the host project root
(`Clean(Join("/u/b","../b")) = "/u/b"`, `Rel = "."`) and yields
`/workspace`, while the claimed formula `Join(guest, Clean(cwd))` yields
`/b`; the cleaned cwd starts with `..` yet is not rejected, because it
resolves back inside the project root. -/
theorem relative_cwd_not_simple_join :
    execGuestCwd "/u/b".data [⟨"/u/b".data, "/workspace".data⟩] "../b".data
        = .ok "/workspace".data ∧
      goJoin2 "/workspace".data (goClean "../b".data) = "/b".data ∧
      "/workspace".data ≠ "/b".data := by
  refine ⟨by rfl, by rfl, by decide⟩

/-- C6 (amended positive part). For a clean absolute project root and a
relative non-empty cwd whose cleaned form does not begin with a `..`
element: with no project-root mount the exec fails with the path error
before any VM work; with a project-root mount of guest path `g` the guest
cwd is `Join(g, Clean(cwd))`; and an absolute cwd is used as the guest cwd
directly. (When the cleaned cwd begins with `..` the code instead resolves
it against the host project root, rejecting only resolutions that escape
the root — see the counterexample.) -/
theorem relative_cwd_resolution (root req : List Char) (mounts : List MountP)
    (hroot : isAbsPath root = true)
    (hclean : goClean root = root)
    (hreqne : req ≠ [])
    (hrelq : isAbsPath req = false)
    (hnoesc : (cleanElems false (splitSlash req)).head? ≠ some ['.', '.']) :
    (projectRootGuestFromSpec root mounts = none →
      execGuestCwd root mounts req =
        .error ("relative cwd requires a mount for project root ".data ++ root)) ∧
    (∀ g, projectRootGuestFromSpec root mounts = some g →
      execGuestCwd root mounts req = .ok (goJoin2 g (goClean req))) ∧
    (∀ cwd, isAbsPath cwd = true →
      execGuestCwd root mounts cwd = .ok cwd) := by
  refine ⟨?_, ?_, ?_⟩
  · intro hnone
    unfold execGuestCwd
    rw [if_pos ⟨hreqne, hrelq⟩]
    simp only [hnone]
  · intro g hg
    unfold execGuestCwd
    rw [if_pos ⟨hreqne, hrelq⟩]
    simp only [hg]
    rw [resolveVMGuestCwd_def, if_neg hreqne, hrelq,
      if_neg (show ¬(false = true) from Bool.false_ne_true)]
    obtain ⟨hrel1, hrel2, hrel3⟩ :=
      rel_eq_core root req _ _ rfl rfl hroot hclean hreqne hrelq hnoesc
    simp only [hrel1]
    rw [if_neg (show ¬(goClean req = ['.', '.'] ∨
        startsWithDotDotSlash (goClean req) = true) from by
      intro h
      rcases h with h | h
      · exact hrel2 h
      · rw [hrel3] at h
        exact Bool.noConfusion h)]
  · intro cwd habs
    unfold execGuestCwd
    rw [if_neg (by
      intro h
      rw [habs] at h
      exact Bool.noConfusion h.2)]
    rw [resolveVMGuestCwd_def]
    obtain ⟨t, rfl⟩ := isAbsPath_eq_true habs
    rw [if_neg (List.cons_ne_nil _ _), habs, if_pos rfl]

/-- Witness for C6 (amended part): with project root `/u/b` mounted at
`/workspace`, the relative cwd `sub/dir` resolves to
`Join("/workspace", "sub/dir")`, a missing mount would be a path error,
and an absolute cwd passes through. -/
theorem relative_cwd_resolution_witness :
    (projectRootGuestFromSpec "/u/b".data [⟨"/u/b".data, "/workspace".data⟩] = none →
      execGuestCwd "/u/b".data [⟨"/u/b".data, "/workspace".data⟩] "sub/dir".data =
        .error ("relative cwd requires a mount for project root ".data ++ "/u/b".data)) ∧
    (∀ g, projectRootGuestFromSpec "/u/b".data [⟨"/u/b".data, "/workspace".data⟩]
        = some g →
      execGuestCwd "/u/b".data [⟨"/u/b".data, "/workspace".data⟩] "sub/dir".data
        = .ok (goJoin2 g (goClean "sub/dir".data))) ∧
    (∀ cwd, isAbsPath cwd = true →
      execGuestCwd "/u/b".data [⟨"/u/b".data, "/workspace".data⟩] cwd = .ok cwd) :=
  relative_cwd_resolution "/u/b".data "sub/dir".data
    [⟨"/u/b".data, "/workspace".data⟩]
    (by decide) (by decide) (by decide) (by decide) (by decide)

end Vibebox
